import Mathlib

/-!
# scraparty: the crawl pipeline of `main.go`

A shallow embedding of `main.go` and a verification of its date enumeration,
its text repair and its page extraction.

Conventions of the embedding.

* A Go `string` is the list of its Unicode code points (`List Char`); the
  inputs are texts of parsed HTML nodes, which are valid UTF-8, so searching,
  replacing and splitting by bytes and by code points agree.
* A Go `int` is an `Int`. A `uint64` of package `time` is an `Int` reduced
  modulo `2 ^ 64` (`uint64`), so the day and second counts of `time.Date` wrap
  as they do in the library.
* A run-time panic (index out of range) is the result `none`.
* Two parts of third-party packages are data that the program does not
  contain: the transliteration table of `go-unidecode` and the title caser of
  `golang.org/x/text/cases`. Both are fields of `Ext`, and every theorem
  holds for every value of them.
-/

namespace Scraparty

/-! ## Package `strings` and `unicode` -/

section Generic

variable {α : Type} [DecidableEq α]

/-- Left-to-right scan of `strings.Replace` for a non-empty `old`: the first
argument counts the elements of the current match still to be skipped. -/
def replaceFrom (old new : List α) : Nat → List α → List α
  | _, [] => []
  | k + 1, _ :: cs => replaceFrom old new k cs
  | 0, c :: cs =>
    if old.isPrefixOf (c :: cs) then new ++ replaceFrom old new (old.length - 1) cs
    else c :: replaceFrom old new 0 cs

/-- Left-to-right scan of `strings.Split` for a non-empty separator: `cur` is
the segment read so far, in reverse. -/
def splitFrom (sep : List α) : Nat → List α → List α → List (List α)
  | _, cur, [] => [cur.reverse]
  | k + 1, cur, _ :: cs => splitFrom sep k cur cs
  | 0, cur, c :: cs =>
    if sep.isPrefixOf (c :: cs) then cur.reverse :: splitFrom sep (sep.length - 1) [] cs
    else splitFrom sep 0 (c :: cur) cs

/-- No occurrence of `u` shares a position with an occurrence of `v`, in any
text: of two occurrences one ends before the other starts. -/
def NoOverlap (u v : List α) : Prop :=
  ∀ a b x y : List α, a ++ u ++ b = x ++ v ++ y →
    (∃ t, x = a ++ u ++ t) ∨ (∃ t, a = x ++ v ++ t)

/-- Executable test for `NoOverlap`: no non-empty suffix of one word is
comparable, as a prefix, with the other word. -/
def noOverlapB (u v : List α) : Bool :=
  (List.range u.length).all
    (fun i => !(u.drop i).isPrefixOf v && !v.isPrefixOf (u.drop i)) &&
  (List.range v.length).all
    (fun j => !(v.drop j).isPrefixOf u && !u.isPrefixOf (v.drop j))

end Generic

/-- The function `strings.ReplaceAll`. An empty `old` matches before every
code point and at the end. -/
def stringsReplaceAll (s old new : List Char) : List Char :=
  if old = [] then new ++ s.flatMap (fun c => c :: new)
  else replaceFrom old new 0 s

/-- The function `strings.Contains`. -/
def stringsContains : List Char → List Char → Bool
  | [], substr => substr.isEmpty
  | c :: cs, substr => substr.isPrefixOf (c :: cs) || stringsContains cs substr

/-- The function `strings.Split`. An empty separator splits after each code
point. -/
def stringsSplit (s sep : List Char) : List (List Char) :=
  if sep = [] then s.map (fun c => [c]) else splitFrom sep 0 [] s

/-- The function `unicode.IsSpace`: the eight Latin-1 spaces and, above
Latin-1, the code points with the White_Space property. -/
def unicodeIsSpace (r : Char) : Bool :=
  let n := r.toNat
  if n ≤ 0xFF then
    n = 0x09 || n = 0x0A || n = 0x0B || n = 0x0C || n = 0x0D || n = 0x20 ||
      n = 0x85 || n = 0xA0
  else
    n = 0x1680 || (0x2000 ≤ n && n ≤ 0x200A) || n = 0x2028 || n = 0x2029 ||
      n = 0x202F || n = 0x205F || n = 0x3000

/-- The function `strings.TrimSpace`. -/
def stringsTrimSpace (s : List Char) : List Char :=
  ((s.dropWhile unicodeIsSpace).reverse.dropWhile unicodeIsSpace).reverse

/-- The function `strings.TrimPrefix`. -/
def stringsTrimPrefix (s pre : List Char) : List Char :=
  if pre.isPrefixOf s then s.drop pre.length else s

/-- The function `strings.TrimSuffix`. -/
def stringsTrimSuffix (s suf : List Char) : List Char :=
  if suf.isSuffixOf s then s.take (s.length - suf.length) else s

/-! ## Package `time` -/

def absoluteZeroYear : Int := -292277022399
def daysPer400Years : Int := 365 * 400 + 97
def daysPer100Years : Int := 365 * 100 + 24
def daysPer4Years : Int := 365 * 4 + 1
def secondsPerDay : Int := 24 * 60 * 60

/-- Conversion to `uint64`, and the result of a `uint64` sum or product:
the value modulo `2 ^ 64`. -/
def uint64 (n : Int) : Int := n % 18446744073709551616

def daysBeforeTable : List Int :=
  [0, 31, 31 + 28, 31 + 28 + 31, 31 + 28 + 31 + 30, 31 + 28 + 31 + 30 + 31,
   31 + 28 + 31 + 30 + 31 + 30, 31 + 28 + 31 + 30 + 31 + 30 + 31,
   31 + 28 + 31 + 30 + 31 + 30 + 31 + 31, 31 + 28 + 31 + 30 + 31 + 30 + 31 + 31 + 30,
   31 + 28 + 31 + 30 + 31 + 30 + 31 + 31 + 30 + 31,
   31 + 28 + 31 + 30 + 31 + 30 + 31 + 31 + 30 + 31 + 30,
   31 + 28 + 31 + 30 + 31 + 30 + 31 + 31 + 30 + 31 + 30 + 31]

/-- The table `daysBefore[i]`: days of a non-leap year before month `i + 1`. -/
def daysBefore (i : Int) : Int := daysBeforeTable.getD i.toNat 0

def isLeap (year : Int) : Bool :=
  year % 4 == 0 && (year % 100 != 0 || year % 400 == 0)

/-- The helper `norm` of package `time`: carries `lo` into `hi` so that
`0 ≤ lo < base`. -/
def norm (hi lo base : Int) : Int × Int :=
  let p : Int × Int :=
    if lo < 0 then
      let n := (-lo - 1) / base + 1
      (hi - n, lo + n * base)
    else (hi, lo)
  if p.2 ≥ base then
    let n := p.2 / base
    (p.1 + n, p.2 - n * base)
  else p

/-- Days from the absolute epoch to January 1 of `year`, by 400-, 100-, 4- and
1-year cycles, in `uint64`. -/
def daysSinceEpoch (year : Int) : Int :=
  let y := uint64 (year - absoluteZeroYear)
  let n := y / 400
  let y := y - 400 * n
  let d := uint64 (daysPer400Years * n)
  let n := y / 100
  let y := y - 100 * n
  let d := uint64 (d + daysPer100Years * n)
  let n := y / 4
  let y := y - 4 * n
  let d := uint64 (d + daysPer4Years * n)
  let n := y
  uint64 (d + 365 * n)

/-- The absolute second count of `time.Date(year, month, day, 0, 0, 0, 0,
time.UTC)`, as `Day` reads it back: the month is normalised into the year, the
day is added unnormalised (day 0 adds `uint64(-1)`), and the day count is
multiplied by `secondsPerDay`, all in `uint64`. The `Time` value stores this
count shifted by a constant that `abs` subtracts again, and the offset of
`time.UTC` is zero. -/
def dateAbs (year month day : Int) : Int :=
  let m := month - 1
  let p := norm year m 12
  let year := p.1
  let month := p.2 + 1
  let d := daysSinceEpoch year
  let d := uint64 (d + daysBefore (month - 1))
  let d := if isLeap year && month ≥ 3 then uint64 (d + 1) else d
  let d := uint64 (d + uint64 (day - 1))
  uint64 (d * secondsPerDay)

/-- Month and day of month of the day `yday` (from 0) of `year`. -/
def monthDay (year yday : Int) : Int × Int × Int :=
  let day := yday
  if isLeap year && day == 31 + 29 - 1 then (year, 2, 29)
  else
    let day := if isLeap year && day > 31 + 29 - 1 then day - 1 else day
    let month := day / 31
    let e := daysBefore (month + 1)
    let p : Int × Int := if day ≥ e then (month + 1, e) else (month, daysBefore month)
    (year, p.1 + 1, day - p.2 + 1)

/-- The helper `absDate` of package `time`: (year, month, day) of an absolute
second count. -/
def absDate (abs : Int) : Int × Int × Int :=
  let d := abs / secondsPerDay
  let n := d / daysPer400Years
  let y := 400 * n
  let d := d - daysPer400Years * n
  let n := d / daysPer100Years
  let n := n - n / 4
  let y := y + 100 * n
  let d := d - daysPer100Years * n
  let n := d / daysPer4Years
  let y := y + 4 * n
  let d := d - daysPer4Years * n
  let n := d / 365
  let n := n - n / 4
  let y := y + n
  let d := d - 365 * n
  monthDay (y + absoluteZeroYear) d

/-! ## The program -/

def JAN : Int := 1
def DEC : Int := 12
def VEN : Nat := 0
def GEN : Nat := 1
def ORG : Int := 2004

/-- The data of the two third-party packages that the program does not
contain. -/
structure Ext where
  /-- Entry of the `go-unidecode` table for a code point from U+007F on. -/
  table : Char → List Char
  /-- The caser `cases.Title(language.English).String`. -/
  caseTitle : List Char → List Char

structure Event where
  Date : List Char := []
  Venue : List Char := []
  Genre : List Char := []
  Title : List Char := []
  Text : List Char := []
  Link : List Char := []
deriving DecidableEq

def daysIn (m : Int) (year : Int) : Int :=
  (absDate (dateAbs year (m + 1) 0)).2.2

/-- The function `unidecode.Unidecode`: a code point below U+007F is copied,
any other is replaced by its table entry. -/
def unidecode (x : Ext) (s : List Char) : List Char :=
  s.flatMap (fun r => if r.toNat < 0x7F then [r] else x.table r)

def remSpace (s : List Char) : List Char :=
  s.foldl (fun rr r => if !unicodeIsSpace r then rr ++ [r] else rr) []

def repair (s : List Char) : List Char :=
  let res := stringsReplaceAll s "m&B".toList "m'n'B".toList
  let res := stringsReplaceAll res "\"".toList "".toList
  let res := stringsReplaceAll res "kc".toList "küc".toList
  let res := stringsReplaceAll res "ebud".toList "ebäud".toList
  let res := stringsReplaceAll res "wlb".toList "wölb".toList
  let res := stringsReplaceAll res "Mrz".toList "März".toList
  let res := stringsReplaceAll res "show_event.pl?sts=det&".toList
    "https://morgengrau.net/cgi-bin/morgengrau/show_event.pl?sts=det&".toList
  res

def decode (x : Ext) (s : List Char) : List Char :=
  repair (unidecode x s)

def split (x : Ext) (s sep : List Char) : List (List Char) :=
  stringsSplit (decode x s) sep

def trim (s : List Char) : List Char :=
  stringsTrimSpace (repair s)

def title (x : Ext) (s : List Char) : List Char :=
  x.caseTitle (trim (decode x (repair s)))

/-- Values of `i` in `for i := lo; i <= hi; i++`. -/
def forRange (lo hi : Int) : List Int :=
  (List.range (hi + 1 - lo).toNat).map (fun (i : Nat) => lo + (i : Int))

/-- The date loop of `scrape`: the (year, month, day) set in the query of each
URL handed to `q.AddURL`, in the order of the calls; `cur` is
`time.Now().Year()`. -/
def dateLoop (cur : Int) : List (Int × Int × Int) :=
  (forRange ORG cur).flatMap fun y =>
    (forRange JAN DEC).flatMap fun m =>
      let days := daysIn m y
      (forRange 1 days).map fun d => (y, m, d)

/-- Capacity of the queue storage, `MaxSize: 10000`. -/
def maxSize : Nat := 10000

/-- The call `q.AddURL` on the in-memory storage: a request that finds
`MaxSize` entries stored is rejected (`ErrQueueFull`; `scrape` drops the
error), any other is stored. -/
def addURL (q : List (Int × Int × Int)) (u : Int × Int × Int) : List (Int × Int × Int) :=
  if q.length ≥ maxSize then q else q ++ [u]

/-- The queue when the date loop of `scrape` ends. -/
def scrapeQueue (cur : Int) : List (Int × Int × Int) :=
  (dateLoop cur).foldl addURL []

/-- What the `body` callback reads from a page. `ChildText` of a selector that
matches nothing is the empty string, and `ForEach` then runs no callback. -/
structure Page where
  /-- Result of `e.ChildText("font")`. -/
  font : List Char := []
  /-- Field `Text` of every `a.event_title` element, in document order. -/
  eventTitles : List (List Char) := []
  /-- Field `Text` of every `span.event_dates` element, in document order. -/
  eventDates : List (List Char) := []
  /-- Result of `e.ChildText("td.event_text")`. -/
  eventText : List Char := []
  /-- Attribute `href` of every `a[href].event` element, in document order. -/
  eventHrefs : List (List Char) := []

def sentinel : List Char := "nichts gefunden".toList

/-- Callback of `ForEach("a.event_title")`. -/
def onTitle (x : Ext) (res : List Char) (item : Event) (text : List Char) : Event :=
  if !(stringsContains res sentinel) then { item with Title := title x text } else item

/-- Callback of `ForEach("span.event_dates")`; `none` is the index-out-of-range
panic. -/
def onDates (x : Ext) (item : Event) (text : List Char) : Option Event := do
  let about := split x text "|".toList
  let venue ← about[VEN]?
  let item := { item with Venue := trim venue }
  let genre ← about[GEN]?
  pure { item with Genre := trim genre }

/-- Callback of `ForEach("a[href].event")`. -/
def onHref (item : Event) (href : List Char) : Event :=
  { item with Link := repair href }

/-- The `body` callback up to its last statement: the item it has built, or
`none` when a `span.event_dates` callback panics. -/
def extract (x : Ext) (e : Page) : Option Event := do
  let res := trim e.font
  let item : Event := {}
  let item :=
    if !(stringsContains res sentinel) then
      { item with
        Date := stringsTrimSuffix (stringsTrimPrefix (decode x res) "Events am ".toList)
          ":".toList }
    else item
  let item := e.eventTitles.foldl (onTitle x res) item
  let item ← e.eventDates.foldlM (onDates x) item
  let item := { item with Text := remSpace e.eventText }
  let item := e.eventHrefs.foldl onHref item
  pure item

/-- The `body` callback of `scrape`, from the value of `events` before the
page to its value after. -/
def onBody (x : Ext) (events : List Event) (e : Page) : Option (List Event) := do
  let item ← extract x e
  if !(stringsContains (trim e.font) sentinel) then pure (events ++ [item])
  else pure events

/-! ## Reference definitions -/

/-- Gregorian length of month `m` of `year`. -/
def gregorianDays (m : Int) (year : Int) : Int :=
  if m = 2 then
    if (year % 4 = 0 ∧ year % 100 ≠ 0) ∨ year % 400 = 0 then 29 else 28
  else if m = 4 ∨ m = 6 ∨ m = 9 ∨ m = 11 then 30
  else 31

/-- Chronological order of (year, month, day). -/
def chronoBefore (a b : Int × Int × Int) : Prop :=
  a.1 < b.1 ∨ (a.1 = b.1 ∧ (a.2.1 < b.2.1 ∨ (a.2.1 = b.2.1 ∧ a.2.2 < b.2.2)))

/-- The pipeline of `title` as the specification words it: transliteration,
repair, trim, title-casing. -/
def titleSpec (x : Ext) (s : List Char) : List Char :=
  x.caseTitle (trim (repair (unidecode x s)))

/-- A display string `MM/DD/YYYY`. -/
def isMMDDYYYY (s : List Char) : Bool :=
  match s with
  | [m1, m2, s1, d1, d2, s2, y1, y2, y3, y4] =>
    m1.isDigit && m2.isDigit && s1 == '/' && d1.isDigit && d2.isDigit && s2 == '/' &&
      y1.isDigit && y2.isDigit && y3.isDigit && y4.isDigit
  | _ => false

/-- An `Ext` for evaluation: the table entries of ä, ö, ü and ß, and a caser
that capitalises the first letter. -/
def sampleExt : Ext where
  table := fun r =>
    if r = 'ä' then ['a'] else if r = 'ö' then ['o'] else if r = 'ü' then ['u']
    else if r = 'ß' then ['s', 's'] else []
  caseTitle := fun s =>
    match s with
    | [] => []
    | c :: cs => c.toUpper :: cs.map Char.toLower

/-- A page whose font text holds the sentinel broken by a double quote. -/
def quotedPage : Page := { font := "nichts gef\"unden".toList }

/-- A page with the sentinel in its font text and every other element
present. -/
def sentinelPage : Page :=
  { font := "Am 01.01.2024 nichts gefunden".toList
    eventTitles := ["ein titel".toList]
    eventDates := ["Club X | Concert".toList]
    eventText := "A  B\tC".toList
    eventHrefs := ["show_event.pl?sts=det&id=7".toList] }

/-- A page whose only venue/genre node has no `|`. -/
def barlessPage : Page :=
  { font := "Events am 24.12.2023:".toList, eventDates := ["Club X".toList] }

/-- A page whose font text is a date label. -/
def labelPage : Page := { font := "Events am 24.12.2023:".toList }

/-- The Event that `labelPage` yields. -/
def labelItem : Event := { Date := "24.12.2023".toList }

/-! ## Auxiliary definitions -/

/-- The patterns of `repair`, in the order of its statements. -/
def repairPatterns : List (List Char) :=
  ["m&B".toList, "\"".toList, "kc".toList, "ebud".toList, "wlb".toList, "Mrz".toList,
   "show_event.pl?sts=det&".toList]

/-- The segment of `s` before its first `|`. -/
def firstSegment (s : List Char) : List Char := s.takeWhile (fun c => c != '|')

/-- The segment of `s` between its first `|` and the next one, or the end. -/
def secondSegment (s : List Char) : List Char :=
  ((s.dropWhile (fun c => c != '|')).drop 1).takeWhile (fun c => c != '|')

/-- The value the `body` callback stores in `item.Date` when the normalised
informational text holds no sentinel. -/
def dateLabel (x : Ext) (e : Page) : List Char :=
  stringsTrimSuffix (stringsTrimPrefix (decode x (trim e.font)) "Events am ".toList)
    ":".toList

/-- Year of a day count, as `absDate` computes it. -/
def absYear (d : Int) : Int :=
  let n := d / daysPer400Years
  let y := 400 * n
  let d := d - daysPer400Years * n
  let n := d / daysPer100Years
  let n := n - n / 4
  let y := y + 100 * n
  let d := d - daysPer100Years * n
  let n := d / daysPer4Years
  let y := y + 4 * n
  let d := d - daysPer4Years * n
  let n := d / 365
  let n := n - n / 4
  let y := y + n
  y + absoluteZeroYear

/-- Day of the year (from 0) of a day count, as `absDate` computes it. -/
def absYday (d : Int) : Int :=
  let n := d / daysPer400Years
  let d := d - daysPer400Years * n
  let n := d / daysPer100Years
  let n := n - n / 4
  let d := d - daysPer100Years * n
  let n := d / daysPer4Years
  let d := d - daysPer4Years * n
  let n := d / 365
  let n := n - n / 4
  d - 365 * n

/-- Month and day of month as `monthDay` computes them, from the leap flag. -/
def monthDayAux (leap : Bool) (yday : Int) : Int × Int :=
  let day := yday
  if leap && day == 31 + 29 - 1 then (2, 29)
  else
    let day := if leap && day > 31 + 29 - 1 then day - 1 else day
    let month := day / 31
    let e := daysBefore (month + 1)
    let p : Int × Int := if day ≥ e then (month + 1, e) else (month, daysBefore month)
    (p.1 + 1, day - p.2 + 1)

/-- Day of the year (from 0) of the last day of month `M`. -/
def ydayLast (leap : Bool) (M : Int) : Int :=
  if M = 12 then 364 + (if leap then 1 else 0)
  else daysBefore M + (if leap && decide (M + 1 ≥ 3) then 1 else 0) - 1

/-- Gregorian length of month `M` from the leap flag. -/
def gregorianAux (leap : Bool) (M : Int) : Int :=
  if M = 2 then (if leap then 29 else 28)
  else if M = 4 ∨ M = 6 ∨ M = 9 ∨ M = 11 then 30
  else 31

/-! ## Scanning lemmas -/

section GenericLemmas

variable {α : Type} [DecidableEq α]

theorem replaceFrom_skip (old new : List α) (k : Nat) (s : List α) :
    replaceFrom old new k s = replaceFrom old new 0 (s.drop k) := by
  induction s generalizing k with
  | nil => cases k <;> simp [replaceFrom]
  | cons c cs ih =>
    cases k with
    | zero => simp
    | succ k => simpa [replaceFrom] using ih k

theorem replaceFrom_match {old : List α} (new : List α) (ho : old ≠ []) (rest : List α) :
    replaceFrom old new 0 (old ++ rest) = new ++ replaceFrom old new 0 rest := by
  cases old with
  | nil => exact absurd rfl ho
  | cons o os =>
    have hp : (o :: os).isPrefixOf (o :: (os ++ rest)) = true := by
      rw [List.isPrefixOf_iff_prefix]; exact ⟨rest, rfl⟩
    have hs := replaceFrom_skip (o :: os) new os.length (os ++ rest)
    simp only [List.drop_left] at hs
    show replaceFrom (o :: os) new 0 (o :: (os ++ rest)) = _
    rw [replaceFrom, if_pos hp]
    simp only [List.length_cons, Nat.add_sub_cancel, hs]

theorem replaceFrom_nomatch {old : List α} (new : List α) {c : α} {cs : List α}
    (h : ¬ old <+: c :: cs) :
    replaceFrom old new 0 (c :: cs) = c :: replaceFrom old new 0 cs := by
  have hp : old.isPrefixOf (c :: cs) = false := by
    rw [← Bool.not_eq_true, List.isPrefixOf_iff_prefix]; exact h
  simp only [replaceFrom, hp, Bool.false_eq_true, if_false]

theorem noOverlap_of_check {u v : List α} (h : noOverlapB u v = true) : NoOverlap u v := by
  simp only [noOverlapB, Bool.and_eq_true, List.all_eq_true, List.mem_range, Bool.not_eq_true',
    ← Bool.not_eq_true, List.isPrefixOf_iff_prefix] at h
  obtain ⟨hu, hv⟩ := h
  intro a b x y e
  rw [List.append_assoc, List.append_assoc, List.append_eq_append_iff] at e
  rcases e with ⟨a', rfl, e⟩ | ⟨c', rfl, e⟩
  · rw [List.append_eq_append_iff] at e
    rcases e with ⟨t, rfl, e⟩ | ⟨t, rfl, e⟩
    · left; exact ⟨t, by simp⟩
    · by_cases ht : t = []
      · subst ht; left; exact ⟨[], by simp⟩
      · exfalso
        have hlt : a'.length < (a' ++ t).length := by
          have := List.length_pos.mpr ht
          simp; omega
        have hd : (a' ++ t).drop a'.length = t := List.drop_left _ _
        have := hu _ hlt
        rw [hd] at this
        rcases List.prefix_or_prefix_of_prefix (⟨b, rfl⟩ : t <+: t ++ b)
          (⟨y, e⟩ : v <+: t ++ b) with h1 | h1
        · exact this.1 h1
        · exact this.2 h1
  · rw [List.append_eq_append_iff] at e
    rcases e with ⟨t, rfl, e⟩ | ⟨t, rfl, e⟩
    · right; exact ⟨t, by simp⟩
    · by_cases ht : t = []
      · subst ht; right; exact ⟨[], by simp⟩
      · exfalso
        have hlt : c'.length < (c' ++ t).length := by
          have := List.length_pos.mpr ht
          simp; omega
        have hd : (c' ++ t).drop c'.length = t := List.drop_left _ _
        have := hv _ hlt
        rw [hd] at this
        rcases List.prefix_or_prefix_of_prefix (⟨y, rfl⟩ : t <+: t ++ y)
          (⟨b, e⟩ : u <+: t ++ y) with h1 | h1
        · exact this.1 h1
        · exact this.2 h1

theorem replaceFrom_keeps_head {old w : List α} (new : List α) (ho : old ≠ [])
    (hn : NoOverlap old w) (q : List α) :
    ∀ (u2 u1 : List α), w = u1 ++ u2 →
      replaceFrom old new 0 (u2 ++ q) = u2 ++ replaceFrom old new 0 q := by
  intro u2
  induction u2 with
  | nil => intro u1 _; rfl
  | cons c u2 ih =>
    intro u1 hw
    have hnm : ¬ old <+: c :: (u2 ++ q) := by
      rintro ⟨rest, hr⟩
      have e : u1 ++ old ++ rest = [] ++ w ++ q := by
        rw [List.append_assoc, hr, hw]; simp
      rcases hn u1 rest [] q e with ⟨t, ht⟩ | ⟨t, ht⟩
      · have := congrArg List.length ht
        have := List.length_pos.mpr ho
        simp at *; omega
      · have := congrArg List.length ht
        have := congrArg List.length hw
        simp at *; omega
    rw [List.cons_append, replaceFrom_nomatch new hnm, ih (u1 ++ [c]) (by simp [hw])]
    rfl

theorem replaceFrom_keeps {old w : List α} (new : List α) (ho : old ≠ []) (hw : w ≠ [])
    (hn : NoOverlap old w) :
    ∀ (n : Nat) (s : List α), s.length ≤ n → w <:+: s → w <:+: replaceFrom old new 0 s := by
  intro n
  induction n with
  | zero =>
    intro s hs hinf
    have : s = [] := List.length_eq_zero.mp (Nat.le_zero.mp hs)
    subst this
    exact absurd (List.infix_nil.mp hinf) hw
  | succ n ih =>
    intro s hs hinf
    cases s with
    | nil => exact absurd (List.infix_nil.mp hinf) hw
    | cons c cs =>
      obtain ⟨p, q, hpq⟩ := hinf
      by_cases hm : old <+: c :: cs
      · obtain ⟨rest, hr⟩ := hm
        rw [← hr, replaceFrom_match new ho]
        have e : [] ++ old ++ rest = p ++ w ++ q := by rw [hpq]; simpa using hr
        rcases hn [] rest p q e with ⟨t, ht⟩ | ⟨t, ht⟩
        · have hrest : rest = t ++ w ++ q := by
            rw [ht] at e
            simpa using e
          have hlen : rest.length ≤ n := by
            have := congrArg List.length hr
            have := List.length_pos.mpr ho
            simp at *; omega
          obtain ⟨p2, q2, h2⟩ := ih rest hlen ⟨t, q, hrest.symm⟩
          exact ⟨new ++ p2, q2, by rw [← h2]; simp⟩
        · have := congrArg List.length ht
          have := List.length_pos.mpr hw
          simp at *; omega
      · cases p with
        | nil =>
          rw [← hpq]
          simp only [List.nil_append]
          rw [replaceFrom_keeps_head new ho hn q w [] rfl]
          exact ⟨[], replaceFrom old new 0 q, by simp⟩
        | cons p0 p =>
          rw [replaceFrom_nomatch new hm]
          have hc : cs = p ++ w ++ q := by
            simp at hpq; simp [hpq.2]
          have hlen : cs.length ≤ n := by simp at hs; omega
          obtain ⟨p2, q2, h2⟩ := ih cs hlen ⟨p, q, hc.symm⟩
          exact ⟨c :: p2, q2, by rw [← h2]; simp⟩

theorem replaceFrom_inserts {old : List α} (new : List α) (ho : old ≠ []) :
    ∀ s : List α, old <:+: s → new <:+: replaceFrom old new 0 s := by
  intro s
  induction s with
  | nil => intro h; exact absurd (List.infix_nil.mp h) ho
  | cons c cs ih =>
    intro h
    by_cases hm : old <+: c :: cs
    · obtain ⟨rest, hr⟩ := hm
      rw [← hr, replaceFrom_match new ho]
      exact ⟨[], replaceFrom old new 0 rest, by simp⟩
    · rw [replaceFrom_nomatch new hm]
      rcases List.infix_cons_iff.mp h with h1 | h1
      · exact absurd h1 hm
      · obtain ⟨p2, q2, h2⟩ := ih h1
        exact ⟨c :: p2, q2, by rw [← h2]; simp⟩

theorem replaceFrom_creates_none {old new w : List α} (ho : old ≠ [])
    (hn : NoOverlap w new) :
    ∀ (n : Nat) (s pre : List α), s.length ≤ n → ¬ w <:+: pre ++ s →
      ¬ w <:+: pre ++ replaceFrom old new 0 s := by
  intro n
  induction n with
  | zero =>
    intro s pre hs h
    have : s = [] := List.length_eq_zero.mp (Nat.le_zero.mp hs)
    subst this
    exact h
  | succ n ih =>
    intro s pre hs h
    cases s with
    | nil => exact h
    | cons c cs =>
      by_cases hm : old <+: c :: cs
      · obtain ⟨rest, hr⟩ := hm
        rw [← hr, replaceFrom_match new ho, ← List.append_assoc]
        have hlen : rest.length ≤ n := by
          have := congrArg List.length hr
          have := List.length_pos.mpr ho
          simp at *; omega
        apply ih rest (pre ++ new) hlen
        rintro ⟨a, b, e⟩
        apply h
        rw [← hr]
        rcases hn a b pre rest e with ⟨t, ht⟩ | ⟨t, ht⟩
        · exact ⟨a, t ++ (old ++ rest), by rw [ht]; simp⟩
        · have hrest : rest = t ++ w ++ b := by
            rw [ht] at e
            simpa using e.symm
          exact ⟨pre ++ old ++ t, b, by rw [hrest]; simp⟩
      · rw [replaceFrom_nomatch new hm]
        have hlen : cs.length ≤ n := by simp at hs; omega
        have := ih cs (pre ++ [c]) hlen (by simpa using h)
        simpa using this

theorem replaceFrom_removes {old new : List α} (ho : old ≠ []) (hn : NoOverlap old new) :
    ∀ (n : Nat) (s pre : List α), s.length ≤ n →
      (∀ a b : List α, a ++ old ++ b = pre ++ s → pre.length ≤ a.length) →
      ¬ old <:+: pre ++ replaceFrom old new 0 s := by
  intro n
  induction n with
  | zero =>
    intro s pre hs hj
    have : s = [] := List.length_eq_zero.mp (Nat.le_zero.mp hs)
    subst this
    rintro ⟨a, b, e⟩
    have e2 : a ++ old ++ b = pre ++ [] := by simpa [replaceFrom] using e
    have := hj a b e2
    have := congrArg List.length e2
    have := List.length_pos.mpr ho
    simp at *; omega
  | succ n ih =>
    intro s pre hs hj
    cases s with
    | nil =>
      rintro ⟨a, b, e⟩
      have e2 : a ++ old ++ b = pre ++ [] := by simpa [replaceFrom] using e
      have := hj a b e2
      have := congrArg List.length e2
      have := List.length_pos.mpr ho
      simp at *; omega
    | cons c cs =>
      by_cases hm : old <+: c :: cs
      · obtain ⟨rest, hr⟩ := hm
        rw [← hr, replaceFrom_match new ho, ← List.append_assoc]
        have hlen : rest.length ≤ n := by
          have := congrArg List.length hr
          have := List.length_pos.mpr ho
          simp at *; omega
        apply ih rest (pre ++ new) hlen
        intro a b e
        rcases hn a b pre rest e with ⟨t, ht⟩ | ⟨t, ht⟩
        · exfalso
          have e2 : a ++ old ++ (t ++ (old ++ rest)) = pre ++ (c :: cs) := by
            rw [ht, hr]; simp
          have := hj a _ e2
          have := congrArg List.length ht
          have := List.length_pos.mpr ho
          simp at *; omega
        · have := congrArg List.length ht
          simp at *; omega
      · rw [replaceFrom_nomatch new hm]
        have hlen : cs.length ≤ n := by simp at hs; omega
        have key : ∀ a b : List α, a ++ old ++ b = (pre ++ [c]) ++ cs →
            (pre ++ [c]).length ≤ a.length := by
          intro a b e
          have e2 : a ++ old ++ b = pre ++ (c :: cs) := by simpa using e
          have h1 := hj a b e2
          by_contra hlt
          have hal : a.length = pre.length := by simp at hlt; omega
          rw [List.append_assoc] at e2
          have := List.append_inj e2 hal
          exact hm ⟨b, this.2⟩
        have := ih cs (pre ++ [c]) hlen key
        simpa using this

end GenericLemmas

/-! ## Facts about package `strings` -/

theorem stringsContains_iff (s w : List Char) : stringsContains s w = true ↔ w <:+: s := by
  induction s with
  | nil => cases w <;> simp [stringsContains]
  | cons c cs ih =>
    rw [stringsContains, Bool.or_eq_true, ih, List.isPrefixOf_iff_prefix, List.infix_cons_iff]

theorem infix_dropWhile {w s : List Char} (p : Char → Bool) (h : w <:+: s)
    (hh : ∀ a ∈ w.head?, p a = false) : w <:+: s.dropWhile p := by
  cases w with
  | nil => exact ⟨[], List.dropWhile p s, by simp⟩
  | cons a w =>
    have ha : p a = false := hh a (by simp)
    induction s with
    | nil => simp at h
    | cons c cs ih =>
      by_cases hp : p c = true
      · rw [List.dropWhile_cons_of_pos hp]
        rcases List.infix_cons_iff.mp h with h1 | h1
        · exfalso
          obtain ⟨t, ht⟩ := h1
          simp at ht
          rw [ht.1] at ha
          simp [ha] at hp
        · exact ih h1
      · rw [List.dropWhile_cons_of_neg hp]
        exact h

theorem stringsTrimSpace_keeps {w s : List Char} (h : w <:+: s)
    (hf : ∀ a ∈ w.head?, unicodeIsSpace a = false)
    (hl : ∀ a ∈ w.getLast?, unicodeIsSpace a = false) : w <:+: stringsTrimSpace s := by
  unfold stringsTrimSpace
  rw [← List.reverse_infix, List.reverse_reverse]
  apply infix_dropWhile
  · rw [List.reverse_infix]
    exact infix_dropWhile _ h hf
  · simpa [List.head?_reverse] using hl

theorem stringsReplaceAll_eq (s : List Char) {old : List Char} (new : List Char)
    (ho : old ≠ []) : stringsReplaceAll s old new = replaceFrom old new 0 s := by
  simp [stringsReplaceAll, ho]

theorem stringsReplaceAll_keeps {old w : List Char} (new : List Char) (ho : old ≠ [])
    (hw : w ≠ []) (hc : noOverlapB old w = true) {s : List Char} (h : w <:+: s) :
    w <:+: stringsReplaceAll s old new := by
  rw [stringsReplaceAll_eq s new ho]
  exact replaceFrom_keeps new ho hw (noOverlap_of_check hc) s.length s le_rfl h

theorem stringsReplaceAll_inserts {old : List Char} (new : List Char) (ho : old ≠ [])
    {s : List Char} (h : old <:+: s) : new <:+: stringsReplaceAll s old new := by
  rw [stringsReplaceAll_eq s new ho]
  exact replaceFrom_inserts new ho s h

theorem stringsReplaceAll_creates_none {old new w : List Char} (ho : old ≠ [])
    (hc : noOverlapB w new = true) {s : List Char} (h : ¬ w <:+: s) :
    ¬ w <:+: stringsReplaceAll s old new := by
  rw [stringsReplaceAll_eq s new ho]
  have := replaceFrom_creates_none ho (noOverlap_of_check hc) s.length s [] le_rfl
    (by simpa using h)
  simpa using this

theorem stringsReplaceAll_removes {old new : List Char} (ho : old ≠ [])
    (hc : noOverlapB old new = true) (s : List Char) :
    ¬ old <:+: stringsReplaceAll s old new := by
  rw [stringsReplaceAll_eq s new ho]
  have := replaceFrom_removes ho (noOverlap_of_check hc) s.length s [] le_rfl
    (fun a _ _ => Nat.zero_le a.length)
  simpa using this

/-! ## Facts about `repair` -/

theorem repair_keeps {w : List Char} (hw : w ≠ [])
    (hc : repairPatterns.all (fun old => noOverlapB old w) = true) {s : List Char}
    (h : w <:+: s) : w <:+: repair s := by
  simp only [repairPatterns, List.all_cons, List.all_nil, Bool.and_true,
    Bool.and_eq_true] at hc
  obtain ⟨h1, h2, h3, h4, h5, h6, h7⟩ := hc
  unfold repair
  exact stringsReplaceAll_keeps _ (by decide) hw h7
    (stringsReplaceAll_keeps _ (by decide) hw h6
    (stringsReplaceAll_keeps _ (by decide) hw h5
    (stringsReplaceAll_keeps _ (by decide) hw h4
    (stringsReplaceAll_keeps _ (by decide) hw h3
    (stringsReplaceAll_keeps _ (by decide) hw h2
    (stringsReplaceAll_keeps _ (by decide) hw h1 h))))))

theorem repair_keeps_sentinel {s : List Char} (h : sentinel <:+: s) :
    sentinel <:+: repair s :=
  repair_keeps (by decide) (by decide) h

theorem trim_keeps_sentinel {s : List Char} (h : sentinel <:+: s) :
    sentinel <:+: trim s :=
  stringsTrimSpace_keeps (repair_keeps_sentinel h) (by decide) (by decide)

theorem repair_inserts_Maerz {s : List Char} (h : "Mrz".toList <:+: s) :
    "März".toList <:+: repair s := by
  unfold repair
  exact stringsReplaceAll_keeps _ (by decide) (by decide) (by decide)
    (stringsReplaceAll_inserts _ (by decide)
    (stringsReplaceAll_keeps _ (by decide) (by decide) (by decide)
    (stringsReplaceAll_keeps _ (by decide) (by decide) (by decide)
    (stringsReplaceAll_keeps _ (by decide) (by decide) (by decide)
    (stringsReplaceAll_keeps _ (by decide) (by decide) (by decide)
    (stringsReplaceAll_keeps _ (by decide) (by decide) (by decide) h))))))

theorem repair_inserts_mnB {s : List Char} (h : "m&B".toList <:+: s) :
    "m'n'B".toList <:+: repair s := by
  unfold repair
  exact stringsReplaceAll_keeps _ (by decide) (by decide) (by decide)
    (stringsReplaceAll_keeps _ (by decide) (by decide) (by decide)
    (stringsReplaceAll_keeps _ (by decide) (by decide) (by decide)
    (stringsReplaceAll_keeps _ (by decide) (by decide) (by decide)
    (stringsReplaceAll_keeps _ (by decide) (by decide) (by decide)
    (stringsReplaceAll_keeps _ (by decide) (by decide) (by decide)
    (stringsReplaceAll_inserts _ (by decide) h))))))

theorem repair_no_Mrz (s : List Char) : ¬ "Mrz".toList <:+: repair s := by
  unfold repair
  exact stringsReplaceAll_creates_none (by decide) (by decide)
    (stringsReplaceAll_removes (by decide) (by decide) _)

/-! ## Facts about `strings.Split` on a one-character separator -/

theorem splitFrom_single (c0 : Char) (s cur : List Char) :
    splitFrom [c0] 0 cur s =
      (cur.reverse ++ s.takeWhile (fun c => c != c0)) ::
        (match s.dropWhile (fun c => c != c0) with
          | [] => []
          | _ :: rest => splitFrom [c0] 0 [] rest) := by
  induction s generalizing cur with
  | nil => simp [splitFrom]
  | cons c cs ih =>
    by_cases hc : c = c0
    · subst hc
      simp [splitFrom, List.isPrefixOf]
    · have h1 : (c0 == c) = false := by simpa using fun h => hc h.symm
      have h2 : (c != c0) = true := by simpa using hc
      rw [splitFrom]
      simp only [List.isPrefixOf, h1, Bool.false_and, Bool.false_eq_true, if_false]
      rw [ih, List.takeWhile_cons, List.dropWhile_cons]
      simp only [h2, if_true, List.reverse_cons, List.append_assoc, List.singleton_append]

theorem dropWhile_ne_eq_nil_iff (c0 : Char) (s : List Char) :
    s.dropWhile (fun c => c != c0) = [] ↔ c0 ∉ s := by
  induction s with
  | nil => simp
  | cons c cs ih =>
    by_cases hc : c = c0
    · subst hc; simp
    · have h2 : (c != c0) = true := by simpa using hc
      rw [List.dropWhile_cons]
      simp only [h2, if_true, ih, List.mem_cons, not_or]
      exact ⟨fun h => ⟨fun h3 => hc h3.symm, h⟩, fun h => h.2⟩

theorem stringsSplit_bar_zero (s : List Char) :
    (stringsSplit s "|".toList)[0]? = some (firstSegment s) := by
  have : stringsSplit s "|".toList = splitFrom ['|'] 0 [] s := by
    simp [stringsSplit]
  rw [this, splitFrom_single]
  simp [firstSegment]

theorem stringsSplit_bar_one (s : List Char) :
    (stringsSplit s "|".toList)[1]? =
      if '|' ∈ s then some (secondSegment s) else none := by
  have : stringsSplit s "|".toList = splitFrom ['|'] 0 [] s := by
    simp [stringsSplit]
  rw [this, splitFrom_single]
  have hd := dropWhile_ne_eq_nil_iff '|' s
  unfold secondSegment
  cases hs : s.dropWhile (fun c => c != '|') with
  | nil =>
    have : '|' ∉ s := hd.mp hs
    simp [this]
  | cons a rest =>
    have : '|' ∈ s := by
      by_contra hn
      rw [hd.mpr hn] at hs
      exact absurd hs (by simp)
    rw [if_pos this]
    show (_ :: splitFrom ['|'] 0 [] rest)[1]? = _
    rw [splitFrom_single]
    simp

/-! ## Facts about the callbacks -/

theorem onDates_eq (x : Ext) (item : Event) (t : List Char) :
    onDates x item t =
      if '|' ∈ decode x t then
        some { item with
          Venue := trim (firstSegment (decode x t))
          Genre := trim (secondSegment (decode x t)) }
      else none := by
  simp only [onDates, split, VEN, GEN, stringsSplit_bar_zero, stringsSplit_bar_one]
  split_ifs <;> rfl

theorem foldlM_onDates_none (x : Ext) (ds : List (List Char)) (item : Event) :
    ds.foldlM (onDates x) item = none ↔ ∃ t ∈ ds, '|' ∉ decode x t := by
  induction ds generalizing item with
  | nil => simp
  | cons d ds ih =>
    rw [List.foldlM_cons, onDates_eq]
    by_cases h : '|' ∈ decode x d
    · simp [h, ih]
    · simp [h]

theorem foldlM_onDates_some (x : Ext) (ds : List (List Char)) (item r : Event)
    (h : ds.foldlM (onDates x) item = some r) :
    r.Date = item.Date ∧ r.Title = item.Title ∧ r.Text = item.Text ∧ r.Link = item.Link ∧
      r.Venue = (match ds.getLast? with
        | none => item.Venue
        | some t => trim (firstSegment (decode x t))) ∧
      r.Genre = (match ds.getLast? with
        | none => item.Genre
        | some t => trim (secondSegment (decode x t))) := by
  induction ds generalizing item with
  | nil =>
    simp at h
    subst h
    simp
  | cons d ds ih =>
    rw [List.foldlM_cons, onDates_eq] at h
    by_cases hd : '|' ∈ decode x d
    · simp only [hd, if_true, Option.some_bind] at h
      have := ih _ h
      obtain ⟨h1, h2, h3, h4, h5, h6⟩ := this
      refine ⟨h1, h2, h3, h4, ?_, ?_⟩
      · rw [h5, List.getLast?_cons]
        cases ds.getLast? <;> simp
      · rw [h6, List.getLast?_cons]
        cases ds.getLast? <;> simp
    · simp [hd] at h

theorem foldl_onTitle (x : Ext) (res : List Char) (ts : List (List Char)) (item : Event) :
    ts.foldl (onTitle x res) item =
      { item with
        Title := match ts.getLast? with
          | none => item.Title
          | some t => if stringsContains res sentinel then item.Title else title x t } := by
  induction ts generalizing item with
  | nil => rfl
  | cons t ts ih =>
    rw [List.foldl_cons, ih, List.getLast?_cons]
    simp only [onTitle]
    cases ts.getLast? <;> cases stringsContains res sentinel <;> simp

theorem foldl_onHref (hs : List (List Char)) (item : Event) :
    hs.foldl onHref item =
      { item with
        Link := match hs.getLast? with
          | none => item.Link
          | some h => repair h } := by
  induction hs generalizing item with
  | nil => rfl
  | cons h hs ih =>
    rw [List.foldl_cons, ih, List.getLast?_cons]
    simp only [onHref]
    cases hs.getLast? <;> simp

theorem extract_none_iff (x : Ext) (e : Page) :
    extract x e = none ↔ ∃ t ∈ e.eventDates, '|' ∉ decode x t := by
  rw [← foldlM_onDates_none x e.eventDates
    (e.eventTitles.foldl (onTitle x (trim e.font))
      (if !(stringsContains (trim e.font) sentinel) then
        { Date := stringsTrimSuffix (stringsTrimPrefix (decode x (trim e.font))
            "Events am ".toList) ":".toList }
       else {}))]
  simp only [extract]
  cases List.foldlM (onDates x) _ e.eventDates <;> simp

theorem extract_some (x : Ext) (e : Page) (item : Event) (h : extract x e = some item) :
    item.Date = (if stringsContains (trim e.font) sentinel then [] else dateLabel x e) ∧
    item.Title = (match e.eventTitles.getLast? with
      | none => []
      | some t => if stringsContains (trim e.font) sentinel then [] else title x t) ∧
    item.Venue = (match e.eventDates.getLast? with
      | none => []
      | some t => trim (firstSegment (decode x t))) ∧
    item.Genre = (match e.eventDates.getLast? with
      | none => []
      | some t => trim (secondSegment (decode x t))) ∧
    item.Text = remSpace e.eventText ∧
    item.Link = (match e.eventHrefs.getLast? with
      | none => []
      | some h => repair h) := by
  simp only [extract, Option.bind_eq_bind, Option.bind_eq_some] at h
  obtain ⟨r, hf, hr⟩ := h
  simp only [pure, Option.some.injEq] at hr
  obtain ⟨h1, h2, h3, h4, h5, h6⟩ := foldlM_onDates_some x _ _ _ hf
  rw [foldl_onTitle] at h1 h2 h3 h4 h5 h6
  rw [foldl_onHref] at hr
  subst hr
  cases hc : stringsContains (trim e.font) sentinel <;>
    simp only [hc, Bool.not_false, Bool.not_true, if_true, Bool.false_eq_true,
      if_false] at h1 h2 h3 h4 h5 h6 ⊢ <;>
    simp only [h1, h2, h4, h5, h6, dateLabel] <;>
    refine ⟨trivial, ?_, ?_, ?_, trivial, ?_⟩ <;> simp

theorem unidecode_ascii (x : Ext) (s : List Char) (h : ∀ c ∈ s, c.toNat < 0x7F) :
    unidecode x s = s := by
  induction s with
  | nil => rfl
  | cons c cs ih =>
    have hc : c.toNat < 0x7F := h c (by simp)
    have ih2 := ih (fun d hd => h d (by simp [hd]))
    simp only [unidecode] at ih2 ⊢
    rw [List.flatMap_cons, ih2, if_pos hc]
    rfl

theorem remSpace_foldl (s acc : List Char) :
    s.foldl (fun rr r => if !unicodeIsSpace r then rr ++ [r] else rr) acc =
      acc ++ s.filter (fun r => !unicodeIsSpace r) := by
  induction s generalizing acc with
  | nil => simp
  | cons c cs ih =>
    rw [List.foldl_cons, ih]
    cases hc : unicodeIsSpace c <;> simp [List.filter_cons, hc]

theorem remSpace_eq_filter (s : List Char) :
    remSpace s = s.filter (fun r => !unicodeIsSpace r) := by
  rw [remSpace, remSpace_foldl, List.nil_append]

theorem onBody_eq (x : Ext) (events : List Event) (e : Page) :
    onBody x events e =
      (extract x e).bind (fun item =>
        if stringsContains (trim e.font) sentinel then some events
        else some (events ++ [item])) := by
  simp only [onBody, Option.bind_eq_bind]
  cases extract x e with
  | none => rfl
  | some item =>
    cases hc : stringsContains (trim e.font) sentinel <;> simp [hc]

theorem onBody_appends_iff (x : Ext) (events : List Event) (e : Page) (item : Event) :
    onBody x events e = some (events ++ [item]) ↔
      extract x e = some item ∧ ¬ sentinel <:+: trim e.font := by
  rw [onBody_eq, ← stringsContains_iff]
  cases hx : extract x e with
  | none => simp
  | some r =>
    cases hc : stringsContains (trim e.font) sentinel
    · simp
    · simp only [Option.some_bind, if_true, Option.some.injEq, not_true_eq_false, and_false,
        iff_false]
      intro h
      have := congrArg List.length h
      simp at this

theorem takeWhile_bar_append (a b : List Char) (ha : '|' ∉ a) :
    List.takeWhile (fun c => c != '|') (a ++ '|' :: b) = a := by
  induction a with
  | nil => simp
  | cons c cs ih =>
    have hc : c ≠ '|' := fun h => ha (by simp [h])
    rw [List.cons_append, List.takeWhile_cons]
    simp only [bne_iff_ne, ne_eq, hc, not_false_eq_true, if_true]
    rw [ih (fun h => ha (by simp [h]))]

theorem dropWhile_bar_append (a b : List Char) (ha : '|' ∉ a) :
    List.dropWhile (fun c => c != '|') (a ++ '|' :: b) = '|' :: b := by
  induction a with
  | nil => simp
  | cons c cs ih =>
    have hc : c ≠ '|' := fun h => ha (by simp [h])
    rw [List.cons_append, List.dropWhile_cons]
    simp only [bne_iff_ne, ne_eq, hc, not_false_eq_true, if_true]
    rw [ih (fun h => ha (by simp [h]))]

theorem stringsTrimPrefix_append (p r : List Char) : stringsTrimPrefix (p ++ r) p = r := by
  have h : p.isPrefixOf (p ++ r) = true := by
    rw [List.isPrefixOf_iff_prefix]; exact ⟨r, rfl⟩
  rw [stringsTrimPrefix, if_pos h, List.drop_left]

theorem stringsTrimSuffix_append (l suf : List Char) : stringsTrimSuffix (l ++ suf) suf = l := by
  have h : suf.isSuffixOf (l ++ suf) = true := by
    rw [List.isSuffixOf_iff_suffix]; exact ⟨l, rfl⟩
  rw [stringsTrimSuffix, if_pos h]
  exact List.take_left' (by simp)

theorem onBody_date_is_label_aux (x : Ext) (e : Page) (events : List Event) (item : Event)
    (h : onBody x events e = some (events ++ [item])) :
    ∀ l : List Char, decode x (trim e.font) = "Events am ".toList ++ l ++ ":".toList →
      item.Date = l := by
  obtain ⟨hi, hs⟩ := (onBody_appends_iff x events e item).mp h
  have hc : stringsContains (trim e.font) sentinel = false := by
    rw [← Bool.not_eq_true, stringsContains_iff]; exact hs
  have h1 := (extract_some x e item hi).1
  rw [hc] at h1
  simp only [Bool.false_eq_true, if_false, dateLabel] at h1
  intro l hl
  rw [h1, hl, List.append_assoc, stringsTrimPrefix_append, stringsTrimSuffix_append]

set_option maxRecDepth 100000 in
theorem linkArtifact_ascii :
    (∀ c ∈ repair "show_event.pl?sts=det&".toList, c.toNat < 0x7F) ∧
    (∀ c ∈ "show_event.pl?sts=det&".toList, c.toNat < 0x7F) ∧
    (∀ c ∈ trim (repair (repair "show_event.pl?sts=det&".toList)), c.toNat < 0x7F) ∧
    (∀ c ∈ trim (repair "show_event.pl?sts=det&".toList), c.toNat < 0x7F) ∧
    (trim (repair (repair "show_event.pl?sts=det&".toList))).length ≠
      (trim (repair "show_event.pl?sts=det&".toList)).length := by
  decide

/-! ## Facts about package `time` -/

theorem uint64_eq (n : Int) (h0 : 0 ≤ n) (h1 : n < 18446744073709551616) : uint64 n = n := by
  unfold uint64
  omega

theorem uint64_range (n : Int) : 0 ≤ uint64 n ∧ uint64 n < 18446744073709551616 := by
  unfold uint64
  omega

theorem absDate_eq (abs : Int) :
    absDate abs = monthDay (absYear (abs / secondsPerDay)) (absYday (abs / secondsPerDay)) :=
  rfl

theorem isLeap_iff (Y : Int) :
    isLeap Y = true ↔ (Y % 4 = 0 ∧ (Y % 100 ≠ 0 ∨ Y % 400 = 0)) := by
  simp [isLeap]

theorem daysSinceEpoch_cycles (Y : Int) (hlo : absoluteZeroYear ≤ Y)
    (hhi : Y ≤ 292277026854) :
    ∃ a b c e : Int, (0 ≤ b ∧ b ≤ 3) ∧ (0 ≤ c ∧ c ≤ 24) ∧ (0 ≤ e ∧ e ≤ 3) ∧
      Y = 400 * a + 100 * b + 4 * c + e + absoluteZeroYear ∧
      daysSinceEpoch Y = 146097 * a + 36524 * b + 1461 * c + 365 * e ∧
      (isLeap Y = true ↔ e = 3 ∧ (c ≠ 24 ∨ b = 3)) ∧
      (0 ≤ a ∧ a ≤ 1461385123) := by
  have hy : uint64 (Y - absoluteZeroYear) = Y - absoluteZeroYear := by
    unfold absoluteZeroYear at hlo ⊢
    exact uint64_eq _ (by omega) (by omega)
  obtain ⟨a, ha⟩ : ∃ a : Int, a = (Y - absoluteZeroYear) / 400 := ⟨_, rfl⟩
  obtain ⟨b, hb⟩ : ∃ b : Int, b = (Y - absoluteZeroYear - 400 * a) / 100 := ⟨_, rfl⟩
  obtain ⟨c, hc⟩ : ∃ c : Int, c = (Y - absoluteZeroYear - 400 * a - 100 * b) / 4 := ⟨_, rfl⟩
  have hd : daysSinceEpoch Y =
      uint64 (uint64 (uint64 (uint64 (daysPer400Years * a) + daysPer100Years * b) +
        daysPer4Years * c) + 365 * (Y - absoluteZeroYear - 400 * a - 100 * b - 4 * c)) := by
    subst ha hb hc
    simp only [daysSinceEpoch, hy]
  refine ⟨a, b, c, Y - absoluteZeroYear - 400 * a - 100 * b - 4 * c, ?_⟩
  rw [hd, isLeap_iff]
  simp only [absoluteZeroYear, daysPer400Years, daysPer100Years, daysPer4Years]
    at ha hb hc hlo ⊢
  generalize he : Y - -292277022399 - 400 * a - 100 * b - 4 * c = e
  have ha2 : 0 ≤ a ∧ a ≤ 1461385123 := by omega
  have hb2 : 0 ≤ b ∧ b ≤ 3 := by omega
  have hc2 : 0 ≤ c ∧ c ≤ 24 := by omega
  have he2 : 0 ≤ e ∧ e ≤ 3 := by omega
  have hy2 : Y = 400 * (a - 730692556) + 100 * b + 4 * c + e + 1 := by omega
  rw [show (365 * 400 + 97 : Int) = 146097 by norm_num,
    show (365 * 100 + 24 : Int) = 36524 by norm_num,
    show (365 * 4 + 1 : Int) = 1461 by norm_num,
    uint64_eq (146097 * a) (by omega) (by omega),
    uint64_eq (146097 * a + 36524 * b) (by omega) (by omega),
    uint64_eq (146097 * a + 36524 * b + 1461 * c) (by omega) (by omega),
    uint64_eq (146097 * a + 36524 * b + 1461 * c + 365 * e) (by omega) (by omega)]
  refine ⟨hb2, hc2, he2, by omega, rfl, ?_, ha2⟩
  clear ha hb hc hd he hy hlo hhi
  generalize a - 730692556 = a3 at hy2
  subst hy2
  omega

theorem abs_of_cycles (a b c e k : Int) (hb : 0 ≤ b ∧ b ≤ 3) (hc : 0 ≤ c ∧ c ≤ 24)
    (he : 0 ≤ e ∧ e ≤ 3) (hk0 : 0 ≤ k) (hk : k ≤ 365)
    (hl : k = 365 → e = 3 ∧ (c ≠ 24 ∨ b = 3)) :
    absYear (146097 * a + 36524 * b + 1461 * c + 365 * e + k) =
        400 * a + 100 * b + 4 * c + e + absoluteZeroYear ∧
      absYday (146097 * a + 36524 * b + 1461 * c + 365 * e + k) = k := by
  have key : k ≤ 364 ∨ (k = 365 ∧ e = 3 ∧ c ≤ 23) ∨ (k = 365 ∧ e = 3 ∧ c = 24 ∧ b = 3) := by
    by_cases h : k = 365
    · obtain ⟨h1, h2⟩ := hl h
      rcases h2 with h2 | h2
      · right; left; exact ⟨h, h1, by omega⟩
      · by_cases h3 : c = 24
        · right; right; exact ⟨h, h1, h3, h2⟩
        · right; left; exact ⟨h, h1, by omega⟩
    · left; omega
  clear hl
  simp only [absYear, absYday, daysPer400Years, daysPer100Years, daysPer4Years]
  norm_num only
  generalize hD : 146097 * a + 36524 * b + 1461 * c + 365 * e + k = D
  generalize h1 : D / 146097 = n1
  generalize h2 : (D - 146097 * n1) / 36524 = n2
  generalize h2m : n2 - n2 / 4 = m2
  generalize h3 : (D - 146097 * n1 - 36524 * m2) / 1461 = n3
  generalize h4 : (D - 146097 * n1 - 36524 * m2 - 1461 * n3) / 365 = n4
  generalize h4m : n4 - n4 / 4 = m4
  rcases key with hk1 | ⟨hk1, he3, hc3⟩ | ⟨hk1, he3, hc3, hb3⟩
  · have hR3 : 0 ≤ 365 * e + k ∧ 365 * e + k ≤ 1459 := by omega
    have hR2 : 0 ≤ 1461 * c + (365 * e + k) ∧ 1461 * c + (365 * e + k) ≤ 36523 := by omega
    have hR1 : 0 ≤ 36524 * b + (1461 * c + (365 * e + k)) ∧
        36524 * b + (1461 * c + (365 * e + k)) ≤ 146095 := by omega
    have e1 : n1 = a := by omega
    subst e1
    have e2 : n2 = b := by omega
    subst e2
    have e2m : m2 = n2 := by omega
    subst e2m
    have e3 : n3 = c := by omega
    subst e3
    have e4 : n4 = e := by omega
    subst e4
    have e4m : m4 = n4 := by omega
    subst e4m
    constructor <;> omega
  · subst hk1 he3
    have hR2 : 0 ≤ 1461 * c ∧ 1461 * c ≤ 33603 := by omega
    have hR1 : 0 ≤ 36524 * b + 1461 * c ∧ 36524 * b + 1461 * c ≤ 143175 := by omega
    have e1 : n1 = a := by omega
    subst e1
    have e2 : n2 = b := by omega
    subst e2
    have e2m : m2 = n2 := by omega
    subst e2m
    have e3 : n3 = c := by omega
    subst e3
    have e4 : n4 = 4 := by omega
    subst e4
    have e4m : m4 = 3 := by omega
    subst e4m
    constructor <;> omega
  · subst hk1 he3 hc3 hb3
    have e1 : n1 = a := by omega
    subst e1
    have e2 : n2 = 4 := by omega
    subst e2
    have e2m : m2 = 3 := by omega
    subst e2m
    have e3 : n3 = 24 := by omega
    subst e3
    have e4 : n4 = 4 := by omega
    subst e4
    have e4m : m4 = 3 := by omega
    subst e4m
    constructor <;> omega

theorem monthDay_snd (Y d : Int) : (monthDay Y d).2 = monthDayAux (isLeap Y) d := by
  simp only [monthDay, monthDayAux]
  split_ifs <;> rfl

theorem gregorianDays_eq_aux (M Y : Int) : gregorianDays M Y = gregorianAux (isLeap Y) M := by
  have h : ((Y % 4 = 0 ∧ Y % 100 ≠ 0) ∨ Y % 400 = 0) ↔ isLeap Y = true := by
    rw [isLeap_iff]; omega
  simp only [gregorianDays, gregorianAux, h]

theorem abs_of_daysSinceEpoch (Y k : Int) (hlo : absoluteZeroYear ≤ Y)
    (hhi : Y ≤ 292277026854) (h0 : 0 ≤ k)
    (h1 : k < 365 + (if isLeap Y = true then 1 else 0)) :
    absYear (daysSinceEpoch Y + k) = Y ∧ absYday (daysSinceEpoch Y + k) = k := by
  obtain ⟨a, b, c, e, hb, hc, he, hY, hd, hl, -⟩ := daysSinceEpoch_cycles Y hlo hhi
  have hk : k ≤ 365 := by split_ifs at h1 <;> omega
  have hk2 : k = 365 → e = 3 ∧ (c ≠ 24 ∨ b = 3) := by
    intro h
    apply hl.mp
    by_contra hn
    rw [if_neg hn] at h1
    omega
  have := abs_of_cycles a b c e k hb hc he h0 hk hk2
  rw [hd, hY]
  exact this

theorem daysSinceEpoch_succ (Y : Int) (hlo : absoluteZeroYear ≤ Y)
    (hhi : Y ≤ 292277026853) :
    daysSinceEpoch (Y + 1) = daysSinceEpoch Y + 365 + (if isLeap Y = true then 1 else 0) := by
  obtain ⟨a, b, c, e, hb, hc, he, hY, hd, hl, -⟩ :=
    daysSinceEpoch_cycles Y hlo (by omega)
  obtain ⟨a2, b2, c2, e2, hb2, hc2, he2, hY2, hd2, -, -⟩ :=
    daysSinceEpoch_cycles (Y + 1) (by omega) (by omega)
  rw [hd, hd2]
  have hrel : 400 * a + 100 * b + 4 * c + e + 1 = 400 * a2 + 100 * b2 + 4 * c2 + e2 := by
    omega
  clear hd hd2 hY hY2 hlo hhi
  by_cases h : isLeap Y = true
  · rw [if_pos h]
    have := hl.mp h
    omega
  · rw [if_neg h]
    have : ¬ (e = 3 ∧ (c ≠ 24 ∨ b = 3)) := fun h2 => h (hl.mpr h2)
    omega

theorem daysSinceEpoch_bounds (Y : Int) (hlo : absoluteZeroYear ≤ Y)
    (hhi : Y ≤ 292277026854) :
    0 ≤ daysSinceEpoch Y ∧ daysSinceEpoch Y ≤ 213503982334289 := by
  obtain ⟨a, b, c, e, hb, hc, he, hY, hd, -, ha⟩ := daysSinceEpoch_cycles Y hlo hhi
  rw [hd]
  unfold absoluteZeroYear at hY
  constructor
  · omega
  · by_cases h : a = 1461385123
    · subst h
      have h1 : 100 * b + 4 * c + e ≤ 53 := by omega
      have h2 : b = 0 := by omega
      subst h2
      have h3 : c ≤ 13 := by omega
      by_cases h4 : c = 13
      · subst h4; omega
      · omega
    · omega

theorem daysBefore_range (M : Int) (h1 : 1 ≤ M) (h11 : M ≤ 11) :
    31 ≤ daysBefore M ∧ daysBefore M ≤ 334 := by
  interval_cases M <;> decide

theorem dateAbs_eq (Y M : Int) (hlo : absoluteZeroYear ≤ Y) (hhi : Y ≤ 292277026853)
    (h1 : 1 ≤ M) (h12 : M ≤ 12) :
    dateAbs Y (M + 1) 0 = (daysSinceEpoch Y + ydayLast (isLeap Y) M) * secondsPerDay := by
  have hs := daysSinceEpoch_succ Y hlo hhi
  have hb1 := daysSinceEpoch_bounds (Y + 1) (by omega) (by omega)
  have hb0 := daysSinceEpoch_bounds Y hlo (by omega)
  have hm1 : uint64 (0 - 1) = 18446744073709551615 := by decide
  by_cases hM : M = 12
  · subst hM
    have hn : norm Y (12 + 1 - 1) 12 = (Y + 1, 0) := by simp [norm]
    have hb : daysBefore (0 + 1 - 1) = 0 := by decide
    have hc : (isLeap (Y + 1) && decide ((0 : Int) + 1 ≥ 3)) = false := by simp
    simp only [dateAbs, hn, ydayLast, if_true, hb, hc, Bool.false_eq_true, if_false, hm1,
      secondsPerDay, show (24 * 60 * 60 : Int) = 86400 by norm_num]
    generalize daysSinceEpoch (Y + 1) = D1 at hs hb1 ⊢
    generalize daysSinceEpoch Y = D0 at hs hb0 ⊢
    have hl : (if isLeap Y = true then (1 : Int) else 0) = 0 ∨
        (if isLeap Y = true then (1 : Int) else 0) = 1 := by
      split_ifs <;> simp
    generalize (if isLeap Y = true then (1 : Int) else 0) = L at hs hl ⊢
    rw [uint64_eq (D1 + 0) (by omega) (by omega)]
    have e1 : uint64 (D1 + 0 + 18446744073709551615) = D1 - 1 := by
      unfold uint64; omega
    rw [e1, uint64_eq _ (by omega) (by omega)]
    omega
  · have hM11 : M ≤ 11 := by omega
    have hn : norm Y M 12 = (Y, M) := by
      unfold norm
      have h3 : ¬ (M < 0) := by omega
      have h4 : ¬ (M ≥ 12) := by omega
      simp only [h3, h4, if_false]
    have hdb := daysBefore_range M h1 hM11
    have hl : (if isLeap Y = true then (1 : Int) else 0) = 0 ∨
        (if isLeap Y = true then (1 : Int) else 0) = 1 := by
      split_ifs <;> simp
    have hD0 : daysSinceEpoch Y ≤ 213503982333924 := by omega
    simp only [dateAbs, add_sub_cancel_right, hn, ydayLast, hM, if_false, hm1,
      secondsPerDay, show (24 * 60 * 60 : Int) = 86400 by norm_num]
    generalize daysSinceEpoch Y = D0 at hb0 hD0 ⊢
    generalize daysBefore M = B at hdb ⊢
    rw [uint64_eq (D0 + B) (by omega) (by omega)]
    split_ifs
    · rw [uint64_eq (D0 + B + 1) (by omega) (by omega)]
      have e1 : uint64 (D0 + B + 1 + 18446744073709551615) = D0 + B := by
        unfold uint64; omega
      rw [e1, uint64_eq _ (by omega) (by omega)]
      omega
    · have e1 : uint64 (D0 + B + 18446744073709551615) = D0 + B - 1 := by
        unfold uint64; omega
      rw [e1, uint64_eq _ (by omega) (by omega)]
      omega

theorem ydayLast_bounds (leap : Bool) (M : Int) (h1 : 1 ≤ M) (h12 : M ≤ 12) :
    0 ≤ ydayLast leap M ∧ ydayLast leap M < 365 + (if leap = true then 1 else 0) := by
  interval_cases M <;> cases leap <;> decide

theorem monthDayAux_ydayLast (leap : Bool) (M : Int) (h1 : 1 ≤ M) (h12 : M ≤ 12) :
    (monthDayAux leap (ydayLast leap M)).2 = gregorianAux leap M := by
  interval_cases M <;> cases leap <;> decide

theorem daysIn_eq_gregorianDays (M Y : Int) (hlo : absoluteZeroYear ≤ Y)
    (hhi : Y ≤ 292277026853) (h1 : 1 ≤ M) (h12 : M ≤ 12) :
    daysIn M Y = gregorianDays M Y := by
  have hb := ydayLast_bounds (isLeap Y) M h1 h12
  have ha := abs_of_daysSinceEpoch Y (ydayLast (isLeap Y) M) hlo (by omega) hb.1 hb.2
  have hs : (daysSinceEpoch Y + ydayLast (isLeap Y) M) * secondsPerDay / secondsPerDay =
      daysSinceEpoch Y + ydayLast (isLeap Y) M :=
    Int.mul_ediv_cancel _ (by decide)
  rw [daysIn, dateAbs_eq Y M hlo hhi h1 h12, absDate_eq, hs, monthDay_snd, ha.1, ha.2,
    monthDayAux_ydayLast _ M h1 h12, gregorianDays_eq_aux]

theorem absYday_range (d : Int) : 0 ≤ absYday d ∧ absYday d ≤ 365 := by
  simp only [absYday, daysPer400Years, daysPer100Years, daysPer4Years]
  norm_num only
  generalize h1 : d / 146097 = n1
  generalize hd1 : d - 146097 * n1 = d1
  have r1 : 0 ≤ d1 ∧ d1 ≤ 146096 := by omega
  clear h1 hd1
  generalize h2 : d1 / 36524 = n2
  generalize h2m : n2 - n2 / 4 = m2
  have r2m : 0 ≤ m2 ∧ m2 ≤ 3 ∧ (n2 ≤ 3 → m2 = n2) ∧ (n2 = 4 → m2 = 3) := by omega
  generalize hd2 : d1 - 36524 * m2 = d2
  have r2 : 0 ≤ d2 ∧ d2 ≤ 36524 := by omega
  clear h2 h2m hd2 r2m r1
  generalize h3 : d2 / 1461 = n3
  generalize hd3 : d2 - 1461 * n3 = d3
  have r3 : 0 ≤ d3 ∧ d3 ≤ 1460 := by omega
  clear h3 hd3 r2
  generalize h4 : d3 / 365 = n4
  generalize h4m : n4 - n4 / 4 = m4
  omega

theorem daysBefore_le (m : Int) (h0 : 0 ≤ m) (h11 : m ≤ 11) : daysBefore m ≤ 31 * m := by
  interval_cases m <;> decide

theorem monthDayAux_pos (leap : Bool) (k : Int) (h0 : 0 ≤ k) (h1 : k ≤ 365) :
    1 ≤ (monthDayAux leap k).2 := by
  have f1 : daysBefore (k / 31) ≤ 31 * (k / 31) :=
    daysBefore_le (k / 31) (by omega) (by omega)
  have f2 : 1 ≤ k → daysBefore ((k - 1) / 31) ≤ 31 * ((k - 1) / 31) :=
    fun h => daysBefore_le ((k - 1) / 31) (by omega) (by omega)
  cases leap
  · simp only [monthDayAux, Bool.false_and, Bool.false_eq_true, if_false]
    split_ifs <;> simp only [] <;> omega
  · simp only [monthDayAux, Bool.true_and]
    by_cases h59 : k = 59
    · subst h59
      decide
    · have c1 : (k == 31 + 29 - 1) = false := by
        rw [beq_eq_false_iff_ne]; omega
      by_cases hgt : k > 59
      · have c2 : decide (k > 31 + 29 - 1) = true := decide_eq_true (by omega)
        have f3 := f2 (by omega)
        simp only [c1, c2, Bool.false_eq_true, if_false, if_true]
        split_ifs <;> simp only [] <;> omega
      · have c2 : decide (k > 31 + 29 - 1) = false := decide_eq_false (by omega)
        simp only [c1, c2, Bool.false_eq_true, if_false]
        split_ifs <;> simp only [] <;> omega

theorem daysIn_ge_one (m Y : Int) : 1 ≤ daysIn m Y := by
  have hy := absYday_range (dateAbs Y (m + 1) 0 / secondsPerDay)
  rw [daysIn, absDate_eq, monthDay_snd]
  exact monthDayAux_pos _ _ hy.1 hy.2

/-! ## Facts about the date loop -/

theorem mem_forRange (lo hi i : Int) : i ∈ forRange lo hi ↔ lo ≤ i ∧ i ≤ hi := by
  simp only [forRange, List.mem_map, List.mem_range]
  constructor
  · rintro ⟨a, ha, rfl⟩
    omega
  · rintro ⟨h1, h2⟩
    exact ⟨(i - lo).toNat, by omega, by omega⟩

theorem forRange_pairwise (lo hi : Int) : (forRange lo hi).Pairwise (fun a b => a < b) := by
  unfold forRange
  rw [List.pairwise_map]
  exact (List.pairwise_lt_range _).imp (fun h => by omega)

theorem length_forRange (lo hi : Int) (h : lo ≤ hi + 1) :
    ((forRange lo hi).length : Int) = hi + 1 - lo := by
  simp only [forRange, List.length_map, List.length_range]
  omega

theorem forRange_succ (lo hi : Int) (h : lo ≤ hi + 1) :
    forRange lo (hi + 1) = forRange lo hi ++ [hi + 1] := by
  unfold forRange
  have e : (hi + 1 + 1 - lo).toNat = (hi + 1 - lo).toNat + 1 := by omega
  rw [e, List.range_succ, List.map_append, List.map_singleton]
  congr 2
  omega

theorem length_flatMap_cast {β : Type} (l : List Int) (f : Int → List β) (g : Int → Int)
    (h : ∀ a ∈ l, ((f a).length : Int) = g a) :
    ((l.flatMap f).length : Int) = (l.map g).sum := by
  induction l with
  | nil => rfl
  | cons a l ih =>
    rw [List.flatMap_cons, List.length_append, List.map_cons, List.sum_cons, Nat.cast_add,
      h a (by simp), ih (fun b hb => h b (by simp [hb]))]

theorem mem_dateLoop (cur y m d : Int) :
    (y, m, d) ∈ dateLoop cur ↔
      ORG ≤ y ∧ y ≤ cur ∧ JAN ≤ m ∧ m ≤ DEC ∧ 1 ≤ d ∧ d ≤ daysIn m y := by
  simp only [dateLoop, List.mem_flatMap, List.mem_map, mem_forRange, Prod.mk.injEq]
  constructor
  · rintro ⟨y2, ⟨h1, h2⟩, m2, ⟨h3, h4⟩, d2, ⟨h5, h6⟩, rfl, rfl, rfl⟩
    exact ⟨h1, h2, h3, h4, h5, h6⟩
  · rintro ⟨h1, h2, h3, h4, h5, h6⟩
    exact ⟨y, ⟨h1, h2⟩, m, ⟨h3, h4⟩, d, ⟨h5, h6⟩, rfl, rfl, rfl⟩

theorem dateLoop_pairwise (cur : Int) : (dateLoop cur).Pairwise chronoBefore := by
  unfold dateLoop
  rw [List.pairwise_flatMap]
  constructor
  · intro y _
    rw [List.pairwise_flatMap]
    constructor
    · intro m _
      rw [List.pairwise_map]
      exact (forRange_pairwise 1 _).imp (fun h => Or.inr ⟨rfl, Or.inr ⟨rfl, h⟩⟩)
    · refine (forRange_pairwise JAN DEC).imp ?_
      intro m1 m2 h a ha b hb
      simp only [List.mem_map] at ha hb
      obtain ⟨_, _, rfl⟩ := ha
      obtain ⟨_, _, rfl⟩ := hb
      exact Or.inr ⟨rfl, Or.inl h⟩
  · refine (forRange_pairwise ORG cur).imp ?_
    intro y1 y2 h a ha b hb
    simp only [List.mem_flatMap, List.mem_map] at ha hb
    obtain ⟨_, _, _, _, rfl⟩ := ha
    obtain ⟨_, _, _, _, rfl⟩ := hb
    exact Or.inl h

theorem chronoBefore_ne {a b : Int × Int × Int} (h : chronoBefore a b) : a ≠ b := by
  rintro rfl
  unfold chronoBefore at h
  omega

theorem dateLoop_length (cur : Int) :
    ((dateLoop cur).length : Int) =
      ((forRange ORG cur).map
        (fun y => ((forRange JAN DEC).map (fun m => daysIn m y)).sum)).sum := by
  unfold dateLoop
  apply length_flatMap_cast
  intro y _
  apply length_flatMap_cast
  intro m _
  have := daysIn_ge_one m y
  rw [List.length_map, length_forRange 1 _ (by omega)]
  omega

theorem dateLoop_succ (cur : Int) (h : ORG ≤ cur + 1) :
    dateLoop (cur + 1) = dateLoop cur ++
      (forRange JAN DEC).flatMap (fun m =>
        (forRange 1 (daysIn m (cur + 1))).map (fun d => (cur + 1, m, d))) := by
  unfold dateLoop
  rw [forRange_succ ORG cur h, List.flatMap_append]
  simp

theorem dateLoop_length_mono (a b : Int) (h0 : ORG ≤ a + 1) (h : a ≤ b) :
    (dateLoop a).length ≤ (dateLoop b).length := by
  refine Int.le_induction (P := fun b => (dateLoop a).length ≤ (dateLoop b).length)
    le_rfl ?_ b h
  intro n hn ih
  rw [dateLoop_succ n (by omega), List.length_append]
  omega

theorem yearSum_eq (y : Int) (hlo : absoluteZeroYear ≤ y) (hhi : y ≤ 292277026853) :
    ((forRange JAN DEC).map (fun m => daysIn m y)).sum =
      365 + (if isLeap y = true then 1 else 0) := by
  have hr : forRange JAN DEC = [1, 2, 3, 4, 5, 6, 7, 8, 9, 10, 11, 12] := by decide
  rw [hr]
  simp only [List.map_cons, List.map_nil, List.sum_cons, List.sum_nil]
  rw [daysIn_eq_gregorianDays 1 y hlo hhi (by decide) (by decide),
    daysIn_eq_gregorianDays 2 y hlo hhi (by decide) (by decide),
    daysIn_eq_gregorianDays 3 y hlo hhi (by decide) (by decide),
    daysIn_eq_gregorianDays 4 y hlo hhi (by decide) (by decide),
    daysIn_eq_gregorianDays 5 y hlo hhi (by decide) (by decide),
    daysIn_eq_gregorianDays 6 y hlo hhi (by decide) (by decide),
    daysIn_eq_gregorianDays 7 y hlo hhi (by decide) (by decide),
    daysIn_eq_gregorianDays 8 y hlo hhi (by decide) (by decide),
    daysIn_eq_gregorianDays 9 y hlo hhi (by decide) (by decide),
    daysIn_eq_gregorianDays 10 y hlo hhi (by decide) (by decide),
    daysIn_eq_gregorianDays 11 y hlo hhi (by decide) (by decide),
    daysIn_eq_gregorianDays 12 y hlo hhi (by decide) (by decide)]
  simp only [gregorianDays_eq_aux]
  cases isLeap y <;> decide

theorem dateLoop_length_years (cur : Int) (hcur : cur ≤ 292277026853) :
    ((dateLoop cur).length : Int) =
      ((forRange ORG cur).map (fun y => 365 + (if isLeap y = true then 1 else 0))).sum := by
  rw [dateLoop_length]
  congr 1
  apply List.map_congr_left
  intro y hy
  rw [mem_forRange] at hy
  exact yearSum_eq y (by unfold absoluteZeroYear; unfold ORG at hy; omega) (by omega)

theorem dateLoop_length_2030 : (dateLoop 2030).length = 9862 := by
  have h : ((dateLoop 2030).length : Int) = 9862 := by
    rw [dateLoop_length_years _ (by decide)]
    decide
  exact_mod_cast h

theorem dateLoop_length_2031 : (dateLoop 2031).length = 10227 := by
  have h : ((dateLoop 2031).length : Int) = 10227 := by
    rw [dateLoop_length_years _ (by decide)]
    decide
  exact_mod_cast h

theorem foldl_addURL (l q : List (Int × Int × Int)) :
    l.foldl addURL q = q ++ l.take (maxSize - q.length) := by
  induction l generalizing q with
  | nil => simp
  | cons u l ih =>
    rw [List.foldl_cons, ih]
    unfold addURL
    split_ifs with hq
    · have e : maxSize - q.length = 0 := by omega
      rw [e]
      simp
    · have e : maxSize - q.length = (maxSize - (q ++ [u]).length) + 1 := by
        simp; omega
      rw [e, List.take_succ_cons]
      simp

theorem scrapeQueue_eq (cur : Int) : scrapeQueue cur = (dateLoop cur).take maxSize := by
  simp [scrapeQueue, foldl_addURL]

/-! ## The claims -/

/-- C3 (amended): for every year `Y` from -292277022399 to 292277026853 (the
years for which the 64-bit day and second counts of `time.Date` do not wrap)
and every month `M` from 1 to 12, `daysIn M Y` is the Gregorian length of the
month; for `M = 12` the month `13` handed to `time.Date` is carried into
January of year `Y + 1` and the result is 31; `daysIn 2 2024 = 29` and
`daysIn 2 2023 = 28`. -/
theorem daysIn_is_gregorian (Y M : Int) (hlo : -292277022399 ≤ Y)
    (hhi : Y ≤ 292277026853) (h1 : 1 ≤ M) (h12 : M ≤ 12) :
    daysIn M Y = gregorianDays M Y ∧
    norm Y (12 + 1 - 1) 12 = (Y + 1, 0) ∧
    daysIn 12 Y = 31 ∧
    daysIn 2 2024 = 29 ∧ daysIn 2 2023 = 28 := by
  refine ⟨daysIn_eq_gregorianDays M Y hlo hhi h1 h12, ?_, ?_, ?_, ?_⟩
  · simp [norm]
  · rw [daysIn_eq_gregorianDays 12 Y hlo hhi (by decide) (by decide)]
    rfl
  · rw [daysIn_eq_gregorianDays 2 2024 (by decide) (by decide) (by decide) (by decide)]
    rfl
  · rw [daysIn_eq_gregorianDays 2 2023 (by decide) (by decide) (by decide) (by decide)]
    rfl

theorem daysIn_is_gregorian_witness :
    (-292277022399 : Int) ≤ 1900 ∧ (1900 : Int) ≤ 292277026853 ∧
    (1 : Int) ≤ 2 ∧ (2 : Int) ≤ 12 ∧ daysIn 2 1900 = 28 ∧ daysIn 2 2000 = 29 :=
  ⟨by decide, by decide, by decide, by decide,
   (daysIn_is_gregorian 1900 2 (by decide) (by decide) (by decide) (by decide)).1.trans
     (by decide),
   (daysIn_is_gregorian 2000 2 (by decide) (by decide) (by decide) (by decide)).1.trans
     (by decide)⟩

/-- C3, as stated, fails: for January of the year 10^12 the second count of
`time.Date` wraps and `daysIn` is 15, not 31; the first failing months are
November and December of the year 292277026854, and the year before
-292277022399 fails too. -/
theorem daysIn_wraps_for_far_years :
    daysIn 1 1000000000000 = 15 ∧ gregorianDays 1 1000000000000 = 31 ∧
    daysIn 11 292277026854 = 21 ∧ gregorianDays 11 292277026854 = 30 ∧
    daysIn 1 (-292277022400) = 8 ∧ gregorianDays 1 (-292277022400) = 31 := by
  decide

/-- C2: for every current year `C ≥ 2004` the date loop sets exactly the
triples with `2004 ≤ year ≤ C`, `1 ≤ month ≤ 12` and `1 ≤ day ≤ daysIn month
year`, each once, in strictly increasing chronological order, and the number
of URLs built is the sum of `daysIn month year` over the years and months. -/
theorem dateLoop_enumerates_each_day_once (C : Int) (hC : 2004 ≤ C) :
    (∀ y m d : Int, (y, m, d) ∈ dateLoop C ↔
      2004 ≤ y ∧ y ≤ C ∧ 1 ≤ m ∧ m ≤ 12 ∧ 1 ≤ d ∧ d ≤ daysIn m y) ∧
    (dateLoop C).Nodup ∧
    (dateLoop C).Pairwise chronoBefore ∧
    ((dateLoop C).length : Int) =
      ((forRange 2004 C).map
        (fun y => ((forRange 1 12).map (fun m => daysIn m y)).sum)).sum ∧
    (2004, 1, 1) ∈ dateLoop C := by
  refine ⟨fun y m d => mem_dateLoop C y m d, ?_, dateLoop_pairwise C, dateLoop_length C, ?_⟩
  · exact (dateLoop_pairwise C).imp (fun h => chronoBefore_ne h)
  · rw [mem_dateLoop]
    have := daysIn_ge_one 1 2004
    refine ⟨le_rfl, hC, le_rfl, by decide, le_rfl, by omega⟩

theorem dateLoop_enumerates_each_day_once_witness :
    (2004 : Int) ≤ 2024 ∧ ((2024, 2, 29) ∈ dateLoop 2024 ∧ (2023, 2, 29) ∉ dateLoop 2024) :=
  ⟨by decide,
   ((dateLoop_enumerates_each_day_once 2024 (by decide)).1 2024 2 29).mpr (by decide),
   fun h => absurd
     (((dateLoop_enumerates_each_day_once 2024 (by decide)).1 2023 2 29).mp h) (by decide)⟩

/-- C10 (amended): for a current year `C` from 2004 to 2030 the date loop builds
at most 10000 URLs and the queue holds every one of them; from `C = 2031` on
the loop builds more than 10000 URLs and the queue keeps the first 10000. -/
theorem queue_holds_all_dates_through_2030 (C : Int) (hC : 2004 ≤ C) :
    ((dateLoop C).length ≤ maxSize ↔ C ≤ 2030) ∧
    (C ≤ 2030 → scrapeQueue C = dateLoop C) ∧
    (2031 ≤ C → scrapeQueue C = (dateLoop C).take maxSize ∧
      (scrapeQueue C).length = maxSize ∧ maxSize < (dateLoop C).length) := by
  have hlo : C ≤ 2030 → (dateLoop C).length ≤ maxSize := by
    intro h
    have := dateLoop_length_mono C 2030 (by unfold ORG; omega) h
    rw [dateLoop_length_2030] at this
    unfold maxSize
    omega
  have hhi : 2031 ≤ C → maxSize < (dateLoop C).length := by
    intro h
    have := dateLoop_length_mono 2031 C (by decide) h
    rw [dateLoop_length_2031] at this
    unfold maxSize
    omega
  refine ⟨⟨?_, hlo⟩, ?_, ?_⟩
  · intro h
    by_contra hn
    have := hhi (by omega)
    omega
  · intro h
    rw [scrapeQueue_eq, List.take_of_length_le (hlo h)]
  · intro h
    refine ⟨scrapeQueue_eq C, ?_, hhi h⟩
    rw [scrapeQueue_eq, List.length_take]
    have := hhi h
    omega

theorem queue_holds_all_dates_through_2030_witness :
    (2004 : Int) ≤ 2030 ∧ scrapeQueue 2030 = dateLoop 2030 :=
  ⟨by decide, (queue_holds_all_dates_through_2030 2030 (by decide)).2.1 (by decide)⟩

/-- C10, as stated, fails: for the current year 2031 the loop builds 10227
URLs, more than the 10000 the queue holds. -/
theorem queue_overflows_in_2031 :
    (2004 : Int) ≤ 2031 ∧ (dateLoop 2031).length = 10227 ∧
      ¬ (dateLoop 2031).length ≤ maxSize := by
  refine ⟨by decide, dateLoop_length_2031, ?_⟩
  rw [dateLoop_length_2031]
  decide

/-- C7: `repair` rewrites `Mrz` to `März` and `m&B` to `m'n'B` whatever text
surrounds them: the result of repairing `a ++ "Mrz" ++ b` contains `März`, that
of `a ++ "m&B" ++ b` contains `m'n'B`, the two bare artifacts are mapped to
exactly the two replacements, and no repaired string contains `Mrz`. -/
theorem repair_restores_artifacts :
    (∀ a b : List Char, "März".toList <:+: repair (a ++ "Mrz".toList ++ b)) ∧
    (∀ a b : List Char, "m'n'B".toList <:+: repair (a ++ "m&B".toList ++ b)) ∧
    repair "Mrz".toList = "März".toList ∧
    repair "m&B".toList = "m'n'B".toList ∧
    (∀ s : List Char, ¬ "Mrz".toList <:+: repair s) :=
  ⟨fun a b => repair_inserts_Maerz ⟨a, b, rfl⟩,
   fun a b => repair_inserts_mnB ⟨a, b, rfl⟩,
   by decide, by decide, repair_no_Mrz⟩

/-- C8: `remSpace s` is `s` without its Unicode whitespace characters, the
other characters kept in order; the result holds no whitespace character, so
the `Text` of an appended Event holds none; `remSpace "A  B\tC" = "ABC"`. -/
theorem remSpace_strips_all_whitespace (s : List Char) :
    remSpace s = s.filter (fun r => !unicodeIsSpace r) ∧
    (∀ r ∈ remSpace s, unicodeIsSpace r = false) ∧
    (∀ r ∈ s, unicodeIsSpace r = false → r ∈ remSpace s) ∧
    (remSpace s).Sublist s ∧
    remSpace "A  B\tC".toList = "ABC".toList ∧
    (∀ (x : Ext) (e : Page) (events : List Event) (item : Event),
      onBody x events e = some (events ++ [item]) →
        item.Text = remSpace e.eventText ∧ ∀ r ∈ item.Text, unicodeIsSpace r = false) := by
  have hf : ∀ t : List Char, ∀ r ∈ remSpace t, unicodeIsSpace r = false := by
    intro t r hr
    rw [remSpace_eq_filter, List.mem_filter] at hr
    simpa using hr.2
  refine ⟨remSpace_eq_filter s, hf s, ?_, ?_, by decide, ?_⟩
  · intro r hr hs
    rw [remSpace_eq_filter, List.mem_filter]
    exact ⟨hr, by simp [hs]⟩
  · rw [remSpace_eq_filter]
    exact List.filter_sublist s
  · intro x e events item h
    have ht := (extract_some x e item ((onBody_appends_iff x events e item).mp h).1).2.2.2.2.1
    exact ⟨ht, fun r hr => hf e.eventText r (ht ▸ hr)⟩

/-- C4: extraction fails exactly when some `span.event_dates` node has a decoded
text without `|` (an empty node text is such a text), and the callback fails
exactly when extraction does; on every other page the item is built, and a
field whose source element is absent is the empty string. -/
theorem extract_fails_iff_segment_missing (x : Ext) (e : Page) :
    (extract x e = none ↔ ∃ t ∈ e.eventDates, '|' ∉ decode x t) ∧
    ([] ∈ e.eventDates → extract x e = none) ∧
    (∀ events : List Event, onBody x events e = none ↔ extract x e = none) ∧
    ((∀ t ∈ e.eventDates, '|' ∈ decode x t) → ∃ item, extract x e = some item) ∧
    (∀ item : Event, extract x e = some item →
      (e.font = [] → item.Date = []) ∧
      (e.eventTitles = [] → item.Title = []) ∧
      (e.eventDates = [] → item.Venue = [] ∧ item.Genre = []) ∧
      (e.eventText = [] → item.Text = []) ∧
      (e.eventHrefs = [] → item.Link = [])) ∧
    extract x {} = some {} := by
  have hd : decode x [] = [] := by
    rw [decode, unidecode_ascii x [] (by simp)]; decide
  refine ⟨extract_none_iff x e, ?_, ?_, ?_, ?_, ?_⟩
  · intro h
    rw [extract_none_iff]
    exact ⟨[], h, by rw [hd]; simp⟩
  · intro events
    rw [onBody_eq]
    cases extract x e with
    | none => simp
    | some item => cases stringsContains (trim e.font) sentinel <;> simp
  · intro h
    cases hx : extract x e with
    | some item => exact ⟨item, rfl⟩
    | none =>
      obtain ⟨t, ht, hn⟩ := (extract_none_iff x e).mp hx
      exact absurd (h t ht) hn
  · intro item h
    obtain ⟨h1, h2, h3, h4, h5, h6⟩ := extract_some x e item h
    refine ⟨?_, ?_, ?_, ?_, ?_⟩
    · intro hf
      rw [h1, dateLabel, hf, show trim [] = [] by decide, hd]
      have : stringsContains [] sentinel = false := by decide
      rw [this]
      decide
    · intro hf; rw [h2, hf]; rfl
    · intro hf; rw [h3, h4, hf]; exact ⟨rfl, rfl⟩
    · intro hf; rw [h5, hf]; rfl
    · intro hf; rw [h6, hf]; rfl
  · have hne : extract x {} ≠ none := by
      rw [Ne, extract_none_iff]
      simp
    cases hx : extract x {} with
    | none => exact absurd hx hne
    | some item =>
      obtain ⟨h1, h2, h3, h4, h5, h6⟩ := extract_some x {} item hx
      have e1 : item.Date = [] := by
        rw [h1, dateLabel, show trim ({} : Page).font = [] by decide, hd]
        have : stringsContains [] sentinel = false := by decide
        rw [this]
        decide
      have e2 : item.Title = [] := h2
      have e3 : item.Venue = [] := h3
      have e4 : item.Genre = [] := h4
      have e5 : item.Text = [] := h5
      have e6 : item.Link = [] := h6
      cases item
      simp only [Event.mk.injEq, Option.some.injEq] at *
      exact ⟨e1, e3, e4, e2, e5, e6⟩

theorem extract_fails_iff_segment_missing_witness :
    extract sampleExt barlessPage = none ∧
    (∃ item, extract sampleExt sentinelPage = some item) :=
  ⟨(extract_fails_iff_segment_missing sampleExt barlessPage).1.mpr
     ⟨"Club X".toList, by decide, by decide⟩,
   (extract_fails_iff_segment_missing sampleExt sentinelPage).2.2.2.1 (by decide)⟩

/-- C5: for a `span.event_dates` node whose decoded text contains `|`, the
callback sets `Venue` to `trim` of the segment before the first `|` of the
decoded text and `Genre` to `trim` of the segment between the first `|` and the
next one (or the end); the page's item carries the values of its last node;
the text `Club X | Concert` gives venue `Club X` and genre `Concert`. -/
theorem onDates_venue_genre (x : Ext) (item : Event) (t : List Char) :
    ('|' ∈ decode x t →
      onDates x item t = some { item with
        Venue := trim (firstSegment (decode x t))
        Genre := trim (secondSegment (decode x t)) }) ∧
    (∀ a b : List Char, '|' ∉ a →
      firstSegment (a ++ '|' :: b) = a ∧ secondSegment (a ++ '|' :: b) = firstSegment b) ∧
    (∀ (e : Page) (ds : List (List Char)) (r : Event), e.eventDates = ds ++ [t] →
      extract x e = some r →
        r.Venue = trim (firstSegment (decode x t)) ∧
        r.Genre = trim (secondSegment (decode x t))) ∧
    onDates x item "Club X | Concert".toList =
      some { item with Venue := "Club X".toList, Genre := "Concert".toList } := by
  refine ⟨?_, ?_, ?_, ?_⟩
  · intro h
    rw [onDates_eq, if_pos h]
  · intro a b ha
    have h1 := takeWhile_bar_append a b ha
    have h2 := dropWhile_bar_append a b ha
    simp only [firstSegment, secondSegment, h1, h2, List.drop_succ_cons, List.drop_zero,
      and_self]
  · intro e ds r he h
    obtain ⟨-, -, h3, h4, -, -⟩ := extract_some x e r h
    rw [he, List.getLast?_concat] at h3 h4
    exact ⟨h3, h4⟩
  · have hd : decode x "Club X | Concert".toList = "Club X | Concert".toList := by
      rw [decode, unidecode_ascii x _ (by decide)]; decide
    rw [onDates_eq, hd, if_pos (by decide)]
    have h1 : trim (firstSegment "Club X | Concert".toList) = "Club X".toList := by decide
    have h2 : trim (secondSegment "Club X | Concert".toList) = "Concert".toList := by decide
    rw [h1, h2]

theorem onDates_venue_genre_witness :
    '|' ∈ decode sampleExt "Bar Y|Lesung | frei".toList ∧
    onDates sampleExt {} "Bar Y|Lesung | frei".toList =
      some { Venue := "Bar Y".toList, Genre := "Lesung".toList } :=
  ⟨by decide,
   ((onDates_venue_genre sampleExt {} "Bar Y|Lesung | frei".toList).1 (by decide)).trans
     (by decide)⟩

set_option maxRecDepth 100000 in
theorem linkArtifact_sample :
    title sampleExt "show_event.pl?sts=det&".toList ≠
      titleSpec sampleExt "show_event.pl?sts=det&".toList := by
  decide

/-- C1 (amended): a page whose informational text contains the sentinel appends
no Event, whatever else it holds: the callback leaves `events` as it is, or
fails on a venue/genre node; a page whose normalised informational text
(`trim` of the font text) lacks the sentinel and whose venue/genre nodes all
contain `|` after decoding appends exactly one Event. -/
theorem onBody_sentinel_gate (x : Ext) (e : Page) (events : List Event) :
    (sentinel <:+: e.font →
      (onBody x events e = none ∨ onBody x events e = some events) ∧
      ((∀ t ∈ e.eventDates, '|' ∈ decode x t) → onBody x events e = some events)) ∧
    (¬ sentinel <:+: trim e.font → (∀ t ∈ e.eventDates, '|' ∈ decode x t) →
      ∃ item, extract x e = some item ∧ onBody x events e = some (events ++ [item])) ∧
    (∀ item : Event, onBody x events e = some (events ++ [item]) →
      ¬ sentinel <:+: e.font ∧ ¬ sentinel <:+: trim e.font ∧
        ∀ t ∈ e.eventDates, '|' ∈ decode x t) := by
  have hsome : (∀ t ∈ e.eventDates, '|' ∈ decode x t) → ∃ item, extract x e = some item := by
    intro h
    cases hx : extract x e with
    | some item => exact ⟨item, rfl⟩
    | none =>
      obtain ⟨t, ht, hn⟩ := (extract_none_iff x e).mp hx
      exact absurd (h t ht) hn
  refine ⟨?_, ?_, ?_⟩
  · intro hs
    have hc : stringsContains (trim e.font) sentinel = true :=
      (stringsContains_iff _ _).mpr (trim_keeps_sentinel hs)
    constructor
    · rw [onBody_eq]
      cases extract x e with
      | none => left; rfl
      | some item => right; simp [hc]
    · intro h
      obtain ⟨item, hi⟩ := hsome h
      rw [onBody_eq, hi]
      simp [hc]
  · intro hs h
    obtain ⟨item, hi⟩ := hsome h
    exact ⟨item, hi, (onBody_appends_iff x events e item).mpr ⟨hi, hs⟩⟩
  · intro item h
    obtain ⟨hi, hs⟩ := (onBody_appends_iff x events e item).mp h
    refine ⟨fun hf => hs (trim_keeps_sentinel hf), hs, ?_⟩
    intro t ht
    by_contra hn
    have := (extract_none_iff x e).mpr ⟨t, ht, hn⟩
    rw [this] at hi
    exact absurd hi (by simp)

theorem onBody_sentinel_gate_witness :
    sentinel <:+: sentinelPage.font ∧ onBody sampleExt [] sentinelPage = some [] ∧
    ¬ sentinel <:+: trim labelPage.font ∧
    (∃ item, extract sampleExt labelPage = some item ∧
      onBody sampleExt [] labelPage = some ([] ++ [item])) :=
  ⟨by decide,
   ((onBody_sentinel_gate sampleExt sentinelPage []).1 (by decide)).2 (by decide),
   by decide,
   (onBody_sentinel_gate sampleExt labelPage []).2.1 (by decide) (by decide)⟩

/-- C1, as stated, fails: the font text `nichts gef"unden` does not contain the
sentinel, yet `repair` deletes the quote and the page appends no Event. -/
theorem sentinel_absent_not_sufficient :
    ¬ ∃ x : Ext, ∀ (e : Page) (events : List Event), ¬ sentinel <:+: e.font →
      ∃ item, onBody x events e = some (events ++ [item]) := by
  rintro ⟨x, h⟩
  obtain ⟨item, hi⟩ := h quotedPage [] (by decide)
  have := ((onBody_appends_iff x [] quotedPage item).mp hi).2
  exact this (by decide)

/-- C9 (amended): the `Date` of an appended Event is the decoded, normalised
informational text without the prefix `Events am ` and without the suffix `:`;
when that text is `Events am L:` the date is the label `L`, not reformatted. -/
theorem onBody_date_is_label (x : Ext) (e : Page) (events : List Event) (item : Event)
    (h : onBody x events e = some (events ++ [item])) :
    item.Date =
      stringsTrimSuffix (stringsTrimPrefix (decode x (trim e.font)) "Events am ".toList)
        ":".toList ∧
    ∀ l : List Char, decode x (trim e.font) = "Events am ".toList ++ l ++ ":".toList →
      item.Date = l := by
  obtain ⟨hi, hs⟩ := (onBody_appends_iff x events e item).mp h
  have hc : stringsContains (trim e.font) sentinel = false := by
    rw [← Bool.not_eq_true, stringsContains_iff]; exact hs
  have h1 := (extract_some x e item hi).1
  rw [hc] at h1
  simp only [Bool.false_eq_true, if_false, dateLabel] at h1
  refine ⟨h1, ?_⟩
  intro l hl
  rw [h1, hl, List.append_assoc, stringsTrimPrefix_append, stringsTrimSuffix_append]

theorem onBody_date_is_label_witness :
    onBody sampleExt [] labelPage = some ([] ++ [labelItem]) ∧
    labelItem.Date = "24.12.2023".toList :=
  ⟨by decide,
   (onBody_date_is_label sampleExt labelPage [] labelItem (by decide)).2
     "24.12.2023".toList (by decide)⟩

/-- C9, as stated, fails: the page with the font text `Events am 24.12.2023:`
appends an Event whose date is `24.12.2023`, which is not `MM/DD/YYYY`. -/
theorem date_not_reformatted :
    ¬ ∃ x : Ext, ∀ (e : Page) (events : List Event) (item : Event),
      onBody x events e = some (events ++ [item]) → isMMDDYYYY item.Date = true := by
  rintro ⟨x, h⟩
  have hne : extract x labelPage ≠ none := by
    rw [Ne, extract_none_iff]
    simp [labelPage]
  cases hx : extract x labelPage with
  | none => exact hne hx
  | some item =>
    have hs : ¬ sentinel <:+: trim labelPage.font := by decide
    have hb := (onBody_appends_iff x [] labelPage item).mpr ⟨hx, hs⟩
    have hd : decode x (trim labelPage.font) =
        "Events am ".toList ++ "24.12.2023".toList ++ ":".toList := by
      rw [show trim labelPage.font = "Events am 24.12.2023:".toList by decide, decode,
        unidecode_ascii x _ (by decide)]
      decide
    have hl := (onBody_date_is_label_aux x labelPage [] item hb) "24.12.2023".toList hd
    have := h labelPage [] item hb
    rw [hl] at this
    exact absurd this (by decide)

/-- C6 (amended): `title s` is title-casing applied to
`trim (repair (t (repair s)))`: `repair` runs first, on `s` itself, then the
transliteration `t`, `repair`, `trim` and the caser; `title` is the pipeline of
the specification run on `repair s`, and agrees with it on `s` when `repair`
leaves `s` unchanged. -/
theorem title_repairs_first (x : Ext) (s : List Char) :
    title x s = x.caseTitle (trim (repair (unidecode x (repair s)))) ∧
    title x s = titleSpec x (repair s) ∧
    (repair s = s → title x s = titleSpec x s) := by
  refine ⟨rfl, rfl, ?_⟩
  intro h
  have : title x s = titleSpec x (repair s) := rfl
  rw [this, h]

/-- C6, as stated, fails for every transliteration table and every caser that
keeps the length of ASCII strings: on `show_event.pl?sts=det&` the repair that
runs before the transliteration adds the site prefix once more. -/
theorem title_differs_from_spec_pipeline :
    (¬ ∃ x : Ext,
      (∀ s : List Char, (∀ c ∈ s, c.toNat < 0x7F) → (x.caseTitle s).length = s.length) ∧
      ∀ s : List Char, title x s = titleSpec x s) ∧
    title sampleExt "show_event.pl?sts=det&".toList ≠
      titleSpec sampleExt "show_event.pl?sts=det&".toList := by
  refine ⟨?_, linkArtifact_sample⟩
  rintro ⟨x, hlen, h⟩
  have e := h "show_event.pl?sts=det&".toList
  have h1 : title x "show_event.pl?sts=det&".toList =
      x.caseTitle (trim (repair (repair "show_event.pl?sts=det&".toList))) := by
    rw [title, decode, unidecode_ascii x _ linkArtifact_ascii.1]
  have h2 : titleSpec x "show_event.pl?sts=det&".toList =
      x.caseTitle (trim (repair "show_event.pl?sts=det&".toList)) := by
    rw [titleSpec, unidecode_ascii x _ linkArtifact_ascii.2.1]
  rw [h1, h2] at e
  have e2 := congrArg List.length e
  rw [hlen _ linkArtifact_ascii.2.2.1, hlen _ linkArtifact_ascii.2.2.2.1] at e2
  exact linkArtifact_ascii.2.2.2.2 e2

end Scraparty
